import Mathlib

/-
Verification development for the origin state manager of rpm-ostree
(src/libpriv/rpmostree-origin.cxx).

The C structures are embedded shallowly:
  * C strings become `List Char` (`Str`);
  * `GHashTable` becomes an association list `Tbl := List (Str × Option Str)`
    (a set is a table whose values are all `none`, mirroring
    `g_hash_table_add` storing NULL values);
  * `GKeyFile` becomes the structure `KeyFile` holding the keys the origin
    code reads and writes; an absent key is `none`;
  * the Rust `Treefile` and the conversions `origin_to_treefile` /
    `treefile_to_origin` are outside the shown sources, so they are modelled
    from the spec (each such definition carries a doc comment saying so);
  * fallible C functions returning gboolean with a GError out-parameter
    become `Except OriginError` values, and in-place mutation becomes
    explicit state passing.  `rpmostree_origin_remove_packages` mutates the
    caches in place while looping, so its embedding threads a `RemoveSt`
    state and returns the post-state even on error, exactly as a C caller
    observes it.
-/

set_option autoImplicit false

abbrev Str := List Char

/-- Shorthand to write `Str` literals. -/
def strL (s : String) : Str := s.toList

/-- Split a character list at every occurrence of `c` (like `g_strsplit`). -/
def splitOnChar (c : Char) : List Char → List (List Char)
  | [] => [[]]
  | a :: t =>
    if a = c then [] :: splitOnChar c t
    else
      match splitOnChar c t with
      | [] => [[a]]
      | h :: r => (a :: h) :: r

/-- Join pieces with the separator `c`; inverse of `splitOnChar`. -/
def joinWith (c : Char) : List (List Char) → List Char
  | [] => []
  | [x] => x
  | x :: xs => x ++ c :: joinWith c xs

/-- Modelled from the spec: the external Identifier Decomposition helper
`rpmostree_decompose_sha256_nevra` (rpmostree-rpm-util, not under src/).
A `"<hash>:<identifier>"` token decomposes at its first colon into the
content hash and the identifier; a token with no colon fails to decompose. -/
def rpmostree_decompose_sha256_nevra (s : Str) : Option (Str × Str) :=
  match splitOnChar ':' s with
  | [] => none
  | [_] => none
  | h :: t => some (h, joinWith ':' t)

/-- Modelled from the spec: the external Identifier Decomposition helper
`rpmostree_decompose_nevra` (not under src/), restricted to the name field.
An identifier `name-version-release.arch` yields its bare name, everything
before the last two dash-separated fields; a string with fewer than three
dash-separated fields fails to decompose. -/
def rpmostree_decompose_nevra (s : Str) : Option Str :=
  let parts := splitOnChar '-' s
  if 3 ≤ parts.length then some (joinWith '-' (parts.dropLast.dropLast)) else none

/-! ## Hash tables

`GHashTable` values used by the origin code map strings to optionally-NULL
strings.  The embedding is an association list; `g_hash_table_replace`
replaces the value of an existing key in place, `g_hash_table_add` inserts
a NULL value, `g_hash_table_remove` deletes the entry of a key and reports
whether it was present. -/

abbrev Tbl := List (Str × Option Str)

def tblKeys (t : Tbl) : List Str := t.map Prod.fst

def tblReplace (k : Str) (v : Option Str) : Tbl → Tbl
  | [] => [(k, v)]
  | kv :: rest => if kv.1 = k then (k, v) :: rest else kv :: tblReplace k v rest

def tblAdd (k : Str) (t : Tbl) : Tbl := tblReplace k none t

def tblRemove (k : Str) : Tbl → Tbl × Bool
  | [] => ([], false)
  | kv :: rest =>
    if kv.1 = k then (rest, true)
    else ((kv :: (tblRemove k rest).1), (tblRemove k rest).2)

def tblContains (k : Str) : Tbl → Bool
  | [] => false
  | kv :: rest => if kv.1 = k then true else tblContains k rest

def tblLookup (k : Str) : Tbl → Option Str
  | [] => none
  | kv :: rest => if kv.1 = k then kv.2 else tblLookup k rest

/-! ## Flat record and structured config -/

/-- The five flat-record sections mirrored by the classification caches. -/
inductive OriginSection where
  | requested
  | requestedLocal
  | requestedLocalFileoverride
  | overridesRemove
  | overridesReplaceLocal
  deriving DecidableEq, Repr

/-- The flat record (`GKeyFile`), restricted to the keys the origin code
reads or writes.  `none` models an absent key. -/
structure KeyFile where
  refspec : Str
  unconfiguredState : Option Str
  pkgsRequested : Option (List Str)
  pkgsRequestedLocal : Option (List Str)
  pkgsRequestedLocalFileoverride : Option (List Str)
  overridesRemove : Option (List Str)
  overridesReplaceLocal : Option (List Str)
  modulesEnable : Option (List Str)
  modulesInstall : Option (List Str)
  initramfsRegenerate : Option Bool
  initramfsArgs : Option (List Str)
  initramfsEtc : Option (List Str)
  cliwrap : Option Bool
  overrideCommit : Option Str
  deriving DecidableEq, Repr

def kfGetSection (kf : KeyFile) : OriginSection → Option (List Str)
  | .requested => kf.pkgsRequested
  | .requestedLocal => kf.pkgsRequestedLocal
  | .requestedLocalFileoverride => kf.pkgsRequestedLocalFileoverride
  | .overridesRemove => kf.overridesRemove
  | .overridesReplaceLocal => kf.overridesReplaceLocal

def kfSetSection (kf : KeyFile) (sec : OriginSection) (l : List Str) : KeyFile :=
  match sec with
  | .requested => { kf with pkgsRequested := some l }
  | .requestedLocal => { kf with pkgsRequestedLocal := some l }
  | .requestedLocalFileoverride => { kf with pkgsRequestedLocalFileoverride := some l }
  | .overridesRemove => { kf with overridesRemove := some l }
  | .overridesReplaceLocal => { kf with overridesReplaceLocal := some l }

def kfRemoveSection (kf : KeyFile) (sec : OriginSection) : KeyFile :=
  match sec with
  | .requested => { kf with pkgsRequested := none }
  | .requestedLocal => { kf with pkgsRequestedLocal := none }
  | .requestedLocalFileoverride => { kf with pkgsRequestedLocalFileoverride := none }
  | .overridesRemove => { kf with overridesRemove := none }
  | .overridesReplaceLocal => { kf with overridesReplaceLocal := none }

/-- Modelled from the spec: the structured configuration (the Rust
`Treefile`, not under src/), the validated semantic source of truth.
It carries the same information as the flat-record fragment above. -/
structure Treefile where
  refspec : Str
  unconfiguredState : Option Str
  packages : List Str
  packagesLocal : List Str
  packagesLocalFileoverride : List Str
  overridesRemove : List Str
  overridesLocalReplace : List Str
  modulesEnable : List Str
  modulesInstall : List Str
  initramfsRegenerate : Bool
  initramfsArgs : List Str
  initramfsEtc : List Str
  cliwrap : Bool
  overrideCommit : Str
  deriving DecidableEq, Repr

def listToOpt (l : List Str) : Option (List Str) := if l = [] then none else some l

/-- Modelled from the spec: the Structured-Config Adapter direction
`to-structured(flat)` (`rpmostreecxx::origin_to_treefile`, not under src/).
Each flat-record key populates the corresponding structured field; absent
list keys become empty lists, absent booleans false. -/
def origin_to_treefile (kf : KeyFile) : Treefile :=
  { refspec := kf.refspec
    unconfiguredState := kf.unconfiguredState
    packages := kf.pkgsRequested.getD []
    packagesLocal := kf.pkgsRequestedLocal.getD []
    packagesLocalFileoverride := kf.pkgsRequestedLocalFileoverride.getD []
    overridesRemove := kf.overridesRemove.getD []
    overridesLocalReplace := kf.overridesReplaceLocal.getD []
    modulesEnable := kf.modulesEnable.getD []
    modulesInstall := kf.modulesInstall.getD []
    initramfsRegenerate := kf.initramfsRegenerate.getD false
    initramfsArgs := kf.initramfsArgs.getD []
    initramfsEtc := kf.initramfsEtc.getD []
    cliwrap := kf.cliwrap.getD false
    overrideCommit := kf.overrideCommit.getD [] }

/-- Modelled from the spec: the Structured-Config Adapter direction
`to-flat(structured)` (`rpmostreecxx::treefile_to_origin`, not under src/),
treated as non-failing.  Empty sections are omitted from the flat record
rather than written as empty lists. -/
def treefile_to_origin (tf : Treefile) : KeyFile :=
  { refspec := tf.refspec
    unconfiguredState := tf.unconfiguredState
    pkgsRequested := listToOpt tf.packages
    pkgsRequestedLocal := listToOpt tf.packagesLocal
    pkgsRequestedLocalFileoverride := listToOpt tf.packagesLocalFileoverride
    overridesRemove := listToOpt tf.overridesRemove
    overridesReplaceLocal := listToOpt tf.overridesLocalReplace
    modulesEnable := listToOpt tf.modulesEnable
    modulesInstall := listToOpt tf.modulesInstall
    initramfsRegenerate := if tf.initramfsRegenerate then some true else none
    initramfsArgs := listToOpt tf.initramfsArgs
    initramfsEtc := listToOpt tf.initramfsEtc
    cliwrap := if tf.cliwrap then some true else none
    overrideCommit := if tf.overrideCommit = [] then none else some tf.overrideCommit }

/-- Typed error taxonomy of the origin code (GError domains collapsed to
the distinct messages raised by rpmostree-origin.cxx and its helpers). -/
inductive OriginError where
  | malformedSpec (tok : Str)
  | invalidNevra (tok : Str)
  | notRequested (pkg : Str)
  | alreadyRequested (pkg : Str)
  | assertionFailed
  deriving DecidableEq, Repr

instance {ε α : Type} [DecidableEq ε] [DecidableEq α] : DecidableEq (Except ε α) := by
  intro a b
  cases a <;> cases b
  case error.error x y =>
    exact if h : x = y then isTrue (by rw [h]) else isFalse (fun hh => by cases hh; exact h rfl)
  case error.ok x y => exact isFalse (fun hh => by cases hh)
  case ok.error x y => exact isFalse (fun hh => by cases hh)
  case ok.ok x y =>
    exact if h : x = y then isTrue (by rw [h]) else isFalse (fun hh => by cases hh; exact h rfl)

/-! ## Parsing (`parse_packages_strv`, `rpmostree_origin_parse_keyfile`) -/

/-- Loop body of `parse_packages_strv` (rpmostree-origin.cxx:100-114): each
token of a hash-qualified section is decomposed and inserted into the map
with `g_hash_table_replace`; plain sections use `g_hash_table_add`. -/
def parsePkgTokens (hasSha : Bool) : List Str → Tbl → Except OriginError Tbl
  | [], ht => .ok ht
  | tok :: rest, ht =>
    if hasSha then
      match rpmostree_decompose_sha256_nevra tok with
      | none => .error (OriginError.malformedSpec tok)
      | some sn => parsePkgTokens hasSha rest (tblReplace sn.2 (some sn.1) ht)
    else parsePkgTokens hasSha rest (tblAdd tok ht)

/-- `parse_packages_strv` (rpmostree-origin.cxx:94-117): read a key-file
string list (absent key gives the empty list, as
`g_key_file_get_string_list` returns NULL) and insert the entries into the
given hash table. -/
def parse_packages_strv (kf : KeyFile) (sec : OriginSection) (hasSha : Bool) (ht : Tbl) :
    Except OriginError Tbl :=
  parsePkgTokens hasSha ((kfGetSection kf sec).getD []) ht

/-- The origin record (`struct RpmOstreeOrigin`): structured config,
flat record, and the five classification caches. -/
structure Origin where
  tf : Treefile
  kf : KeyFile
  cachedUnconfiguredState : Option Str
  cachedPackages : Tbl
  cachedLocalPackages : Tbl
  cachedLocalFileoverridePackages : Tbl
  cachedOverridesLocalReplace : Tbl
  cachedOverridesRemove : Tbl
  deriving DecidableEq, Repr

/-- `rpmostree_origin_parse_keyfile` (rpmostree-origin.cxx:133-179):
derive the structured config from the input flat record, re-derive the
canonical flat record from it, then populate the five caches from that
flat record; the first malformed hash-qualified token aborts construction
(the best-effort round-trip diagnostic is advisory and not modelled). -/
def rpmostree_origin_parse_keyfile (origin : KeyFile) : Except OriginError Origin :=
  let tf := origin_to_treefile origin
  let kf := treefile_to_origin tf
  match parse_packages_strv kf .requested false [] with
  | .error e => .error e
  | .ok cPkgs =>
    match parse_packages_strv kf .requestedLocal true [] with
    | .error e => .error e
    | .ok cLocal =>
      match parse_packages_strv kf .requestedLocalFileoverride true [] with
      | .error e => .error e
      | .ok cFo =>
        match parse_packages_strv kf .overridesRemove false [] with
        | .error e => .error e
        | .ok cOvrRm =>
          match parse_packages_strv kf .overridesReplaceLocal true [] with
          | .error e => .error e
          | .ok cOvrRepl =>
            .ok { tf := tf
                  kf := kf
                  cachedUnconfiguredState := kf.unconfiguredState
                  cachedPackages := cPkgs
                  cachedLocalPackages := cLocal
                  cachedLocalFileoverridePackages := cFo
                  cachedOverridesLocalReplace := cOvrRepl
                  cachedOverridesRemove := cOvrRm }

/-- `rpmostree_origin_dup` (rpmostree-origin.cxx:182-189): re-parse the
current flat record; the C code asserts that this cannot fail. -/
def rpmostree_origin_dup (origin : Origin) : Except OriginError Origin :=
  rpmostree_origin_parse_keyfile origin.kf

/-- `sync_treefile` (rpmostree-origin.cxx:77-83): re-derive the structured
config from the current flat record. -/
def sync_treefile (o : Origin) : Origin := { o with tf := origin_to_treefile o.kf }

/-- `sync_origin` (rpmostree-origin.cxx:85-91): re-derive the flat record
from the current structured config. -/
def sync_origin (o : Origin) : Origin := { o with kf := treefile_to_origin o.tf }

/-! ## Cache-to-flat write-back -/

/-- Encoding of one map-cache entry written back to the flat record:
`g_strconcat (v, ":", k, NULL)` (rpmostree-origin.cxx:435). -/
def serializeMapTok (kv : Str × Option Str) : Str := kv.2.getD [] ++ ':' :: kv.1

/-- `update_string_list_from_hash_table` (rpmostree-origin.cxx:328-335):
write the keys of a set-style table as a plain string list. -/
def update_string_list_from_hash_table (kf : KeyFile) (sec : OriginSection) (values : Tbl) :
    KeyFile :=
  kfSetSection kf sec (tblKeys values)

/-- `update_keyfile_pkgs_from_cache` (rpmostree-origin.cxx:418-443): an
empty cache removes the key outright; otherwise every entry is written as
one token, `"<hash>:<identifier>"` for maps and the plain key for sets. -/
def update_keyfile_pkgs_from_cache (kf : KeyFile) (sec : OriginSection) (pkgs : Tbl)
    (hasCsum : Bool) : KeyFile :=
  if pkgs = [] then kfRemoveSection kf sec
  else if hasCsum then kfSetSection kf sec (pkgs.map serializeMapTok)
  else update_string_list_from_hash_table kf sec pkgs

/-- `set_changed` (rpmostree-origin.cxx:445-451): OR-accumulate into the
out-parameter; a NULL pointer (`none`) is accepted without effect. -/
def set_changed (out : Option Bool) (c : Bool) : Option Bool := out.map (· || c)

/-! ## remove-packages -/

/-- `build_name_to_nevra_map` loop body (rpmostree-origin.cxx:501-507). -/
def buildNameMap : List Str → Tbl → Except OriginError Tbl
  | [], acc => .ok acc
  | nevra :: rest, acc =>
    match rpmostree_decompose_nevra nevra with
    | none => .error (OriginError.invalidNevra nevra)
    | some name => buildNameMap rest (tblReplace name (some nevra) acc)

/-- `build_name_to_nevra_map` (rpmostree-origin.cxx:496-511): index the
identifiers of a cache by their bare package name. -/
def build_name_to_nevra_map (nevras : Tbl) : Except OriginError Tbl :=
  buildNameMap (tblKeys nevras) []

/-- In-place loop state of `rpmostree_origin_remove_packages`: the three
requested caches, the per-bucket changed flags, and the lazily built
name-to-identifier indexes. -/
structure RemoveSt where
  pkgs : Tbl
  localPkgs : Tbl
  localFo : Tbl
  chPkgs : Bool
  chLocal : Bool
  chFo : Bool
  maps : Option (Tbl × Tbl)
  deriving DecidableEq, Repr

/-- Name-index branch of the removal loop (rpmostree-origin.cxx:549-565):
look the identifier up as a bare name in the local index, then the
fileoverride index; a hit removes the resolved identifier (the C code
`g_assert`s that this removal succeeds); a complete miss raises
NotRequested unless allow-noent is set. -/
def removeViaNameMaps (allowNoent : Bool) (st : RemoveSt) (m1 m2 : Tbl) (p : Str) :
    RemoveSt × Option OriginError :=
  if tblContains p m1 then
    if (tblRemove ((tblLookup p m1).getD []) st.localPkgs).2 then
      ({ st with localPkgs := (tblRemove ((tblLookup p m1).getD []) st.localPkgs).1,
                 chLocal := true }, none)
    else (st, some OriginError.assertionFailed)
  else if tblContains p m2 then
    if (tblRemove ((tblLookup p m2).getD []) st.localFo).2 then
      ({ st with localFo := (tblRemove ((tblLookup p m2).getD []) st.localFo).1,
                 chFo := true }, none)
    else (st, some OriginError.assertionFailed)
  else if !allowNoent then (st, some (OriginError.notRequested p))
  else (st, none)

/-- One iteration of the removal loop (rpmostree-origin.cxx:528-566):
exact match in requested-local, then requested-local-fileoverride, then
requested, then the lazily built bare-name indexes (built once, from the
cache contents at that moment, and reused afterwards). -/
def removeOne (allowNoent : Bool) (st : RemoveSt) (p : Str) : RemoveSt × Option OriginError :=
  if (tblRemove p st.localPkgs).2 then
    ({ st with localPkgs := (tblRemove p st.localPkgs).1, chLocal := true }, none)
  else if (tblRemove p st.localFo).2 then
    ({ st with localFo := (tblRemove p st.localFo).1, chFo := true }, none)
  else if (tblRemove p st.pkgs).2 then
    ({ st with pkgs := (tblRemove p st.pkgs).1, chPkgs := true }, none)
  else
    match st.maps with
    | some ms => removeViaNameMaps allowNoent st ms.1 ms.2 p
    | none =>
      match build_name_to_nevra_map st.localPkgs with
      | .error e => (st, some e)
      | .ok m1 =>
        match build_name_to_nevra_map st.localFo with
        | .error e => (st, some e)
        | .ok m2 =>
          removeViaNameMaps allowNoent { st with maps := some (m1, m2) } m1 m2 p

/-- The removal loop over the identifier list; the first error stops the
loop, keeping the cache mutations already applied. -/
def removeLoop (allowNoent : Bool) : RemoveSt → List Str → RemoveSt × Option OriginError
  | st, [] => (st, none)
  | st, p :: rest =>
    match removeOne allowNoent st p with
    | (st', none) => removeLoop allowNoent st' rest
    | (st', some e) => (st', some e)

/-- Outcome of a mutation entry point: the observable origin record, the
caller's changed out-parameter (NULL modelled as `none`), and the typed
error if the call returned FALSE. -/
structure MutResult where
  origin : Origin
  outChanged : Option Bool
  err : Option OriginError
  deriving DecidableEq, Repr

def initRemoveSt (o : Origin) : RemoveSt :=
  { pkgs := o.cachedPackages
    localPkgs := o.cachedLocalPackages
    localFo := o.cachedLocalFileoverridePackages
    chPkgs := false
    chLocal := false
    chFo := false
    maps := none }

def applyCaches (o : Origin) (st : RemoveSt) : Origin :=
  { o with cachedPackages := st.pkgs
           cachedLocalPackages := st.localPkgs
           cachedLocalFileoverridePackages := st.localFo }

/-- The three conditional write-backs of rpmostree-origin.cxx:568-576. -/
def writeBackKf (kf : KeyFile) (st : RemoveSt) : KeyFile :=
  let kf1 := if st.chPkgs then
      update_keyfile_pkgs_from_cache kf .requested st.pkgs false else kf
  let kf2 := if st.chLocal then
      update_keyfile_pkgs_from_cache kf1 .requestedLocal st.localPkgs true else kf1
  if st.chFo then
    update_keyfile_pkgs_from_cache kf2 .requestedLocalFileoverride st.localFo true else kf2

/-- Tail of `rpmostree_origin_remove_packages` (rpmostree-origin.cxx:
568-583): write back only the sections whose cache changed, OR-accumulate
the changed flag, and re-derive the structured config once if anything
changed. -/
def finishRemove (o : Origin) (st : RemoveSt) (outChanged : Option Bool) : MutResult :=
  let o1 := applyCaches o st
  let any := st.chPkgs || st.chLocal || st.chFo
  let o2 := { o1 with kf := writeBackKf o1.kf st }
  ⟨if any then sync_treefile o2 else o2, set_changed outChanged any, none⟩

/-- `rpmostree_origin_remove_packages` (rpmostree-origin.cxx:514-584).
A NULL identifier list returns TRUE immediately.  Otherwise the loop
removes each identifier from the caches in place; an error surfaces the
partially mutated caches to the caller (the flat record is only written
after the loop). -/
def rpmostree_origin_remove_packages (o : Origin) (packages : Option (List Str))
    (allowNoent : Bool) (outChanged : Option Bool) : MutResult :=
  match packages with
  | none => ⟨o, outChanged, none⟩
  | some ps =>
    match removeLoop allowNoent (initRemoveSt o) ps with
    | (st, some e) => ⟨applyCaches o st, outChanged, some e⟩
    | (st, none) => finishRemove o st outChanged

/-! ## add-packages and the auxiliary toggles (treefile side modelled from
the spec) -/

def listContains (l : List Str) (x : Str) : Bool :=
  match l with
  | [] => false
  | a :: t => if a = x then true else listContains t x

def nevraOfToken (tok : Str) : Option Str :=
  (rpmostree_decompose_sha256_nevra tok).map Prod.snd

/-- Modelled from the spec: the structured config owns duplicate detection
against all buckets, not just its own (§4.4). -/
def treefileRequestedAnywhere (tf : Treefile) (p : Str) : Bool :=
  listContains tf.packages p ||
  listContains (tf.packagesLocal.filterMap nevraOfToken) p ||
  listContains (tf.packagesLocalFileoverride.filterMap nevraOfToken) p

/-- Modelled from the spec: `Treefile::add_packages` (not under src/).
A duplicate fails with AlreadyRequested unless allow-existing is set, in
which case it is silently skipped; new identifiers are appended and the
returned flag records whether anything was actually added. -/
def addPkgsGo (allowExisting : Bool) (tf : Treefile) (changed : Bool) :
    List Str → Except OriginError (Treefile × Bool)
  | [] => .ok (tf, changed)
  | p :: rest =>
    if treefileRequestedAnywhere tf p then
      if allowExisting then addPkgsGo allowExisting tf changed rest
      else .error (OriginError.alreadyRequested p)
    else addPkgsGo allowExisting { tf with packages := tf.packages ++ [p] } true rest

def treefile_add_packages (tf : Treefile) (pkgs : List Str) (allowExisting : Bool) :
    Except OriginError (Treefile × Bool) :=
  addPkgsGo allowExisting tf false pkgs

/-- `rpmostree_origin_add_packages` (rpmostree-origin.cxx:454-464):
delegate to the structured config, resync the flat record when something
changed, and overwrite the out-parameter with the returned flag. -/
def rpmostree_origin_add_packages (o : Origin) (pkgs : List Str) (allowExisting : Bool)
    (outChanged : Option Bool) : MutResult :=
  match treefile_add_packages o.tf pkgs allowExisting with
  | .error e => ⟨o, outChanged, some e⟩
  | .ok tc =>
    let o1 := { o with tf := tc.1 }
    ⟨if tc.2 then sync_origin o1 else o1, outChanged.map (fun _ => tc.2), none⟩

def listAddAbsent (l : List Str) (xs : List Str) : List Str :=
  xs.foldl (fun acc x => if listContains acc x then acc else acc ++ [x]) l

def listRemovePresent (l : List Str) (xs : List Str) : List Str :=
  l.filter (fun a => !(listContains xs a))

/-- Modelled from the spec: `Treefile::initramfs_etc_files_track`. -/
def treefile_initramfs_etc_files_track (tf : Treefile) (paths : List Str) : Treefile × Bool :=
  let l' := listAddAbsent tf.initramfsEtc paths
  ({ tf with initramfsEtc := l' }, if l' = tf.initramfsEtc then false else true)

/-- Modelled from the spec: `Treefile::initramfs_etc_files_untrack`. -/
def treefile_initramfs_etc_files_untrack (tf : Treefile) (paths : List Str) : Treefile × Bool :=
  let l' := listRemovePresent tf.initramfsEtc paths
  ({ tf with initramfsEtc := l' }, if l' = tf.initramfsEtc then false else true)

/-- Modelled from the spec: `Treefile::initramfs_etc_files_untrack_all`. -/
def treefile_initramfs_etc_files_untrack_all (tf : Treefile) : Treefile × Bool :=
  ({ tf with initramfsEtc := [] }, if tf.initramfsEtc = [] then false else true)

/-- Modelled from the spec: `Treefile::add_modules`; enable-only mode only
toggles enablement without adding packages (§4.7). -/
def treefile_add_modules (tf : Treefile) (ms : List Str) (enableOnly : Bool) : Treefile × Bool :=
  if enableOnly then
    let l' := listAddAbsent tf.modulesEnable ms
    ({ tf with modulesEnable := l' }, if l' = tf.modulesEnable then false else true)
  else
    let l' := listAddAbsent tf.modulesInstall ms
    ({ tf with modulesInstall := l' }, if l' = tf.modulesInstall then false else true)

/-- Modelled from the spec: `Treefile::remove_modules`. -/
def treefile_remove_modules (tf : Treefile) (ms : List Str) (enableOnly : Bool) :
    Treefile × Bool :=
  if enableOnly then
    let l' := listRemovePresent tf.modulesEnable ms
    ({ tf with modulesEnable := l' }, if l' = tf.modulesEnable then false else true)
  else
    let l' := listRemovePresent tf.modulesInstall ms
    ({ tf with modulesInstall := l' }, if l' = tf.modulesInstall then false else true)

/-- Modelled from the spec: `Treefile::set_initramfs_regenerate`. -/
def treefile_set_initramfs_regenerate (tf : Treefile) (r : Bool) (args : List Str) : Treefile :=
  { tf with initramfsRegenerate := r, initramfsArgs := args }

/-- Modelled from the spec: `Treefile::set_override_commit`. -/
def treefile_set_override_commit (tf : Treefile) (c : Str) : Treefile :=
  { tf with overrideCommit := c }

/-- Modelled from the spec: `Treefile::set_cliwrap`. -/
def treefile_set_cliwrap (tf : Treefile) (b : Bool) : Treefile :=
  { tf with cliwrap := b }

/-- `rpmostree_origin_add_modules` (rpmostree-origin.cxx:587-595). -/
def rpmostree_origin_add_modules (o : Origin) (ms : List Str) (enableOnly : Bool) :
    Origin × Bool :=
  let tc := treefile_add_modules o.tf ms enableOnly
  let o1 := { o with tf := tc.1 }
  (if tc.2 then sync_origin o1 else o1, tc.2)

/-- `rpmostree_origin_remove_modules` (rpmostree-origin.cxx:597-606). -/
def rpmostree_origin_remove_modules (o : Origin) (ms : List Str) (enableOnly : Bool) :
    Origin × Bool :=
  let tc := treefile_remove_modules o.tf ms enableOnly
  let o1 := { o with tf := tc.1 }
  (if tc.2 then sync_origin o1 else o1, tc.2)

/-- `rpmostree_origin_initramfs_etc_files_track` (rpmostree-origin.cxx:
337-345). -/
def rpmostree_origin_initramfs_etc_files_track (o : Origin) (paths : List Str) : Origin × Bool :=
  let tc := treefile_initramfs_etc_files_track o.tf paths
  let o1 := { o with tf := tc.1 }
  (if tc.2 then sync_origin o1 else o1, tc.2)

/-- `rpmostree_origin_initramfs_etc_files_untrack` (rpmostree-origin.cxx:
347-356). -/
def rpmostree_origin_initramfs_etc_files_untrack (o : Origin) (paths : List Str) :
    Origin × Bool :=
  let tc := treefile_initramfs_etc_files_untrack o.tf paths
  let o1 := { o with tf := tc.1 }
  (if tc.2 then sync_origin o1 else o1, tc.2)

/-- `rpmostree_origin_initramfs_etc_files_untrack_all` (rpmostree-origin.cxx:
358-366). -/
def rpmostree_origin_initramfs_etc_files_untrack_all (o : Origin) : Origin × Bool :=
  let tc := treefile_initramfs_etc_files_untrack_all o.tf
  let o1 := { o with tf := tc.1 }
  (if tc.2 then sync_origin o1 else o1, tc.2)

/-- `rpmostree_origin_set_regenerate_initramfs` (rpmostree-origin.cxx:
368-375): returns void and resynchronizes unconditionally. -/
def rpmostree_origin_set_regenerate_initramfs (o : Origin) (r : Bool) (args : List Str) :
    Origin :=
  sync_origin { o with tf := treefile_set_initramfs_regenerate o.tf r args }

/-- `rpmostree_origin_set_override_commit` (rpmostree-origin.cxx:377-383):
returns void; a NULL checksum is treated as the empty string. -/
def rpmostree_origin_set_override_commit (o : Origin) (checksum : Option Str) : Origin :=
  sync_origin { o with tf := treefile_set_override_commit o.tf (checksum.getD []) }

/-- `rpmostree_origin_set_cliwrap` (rpmostree-origin.cxx:392-398):
returns void and resynchronizes unconditionally. -/
def rpmostree_origin_set_cliwrap (o : Origin) (b : Bool) : Origin :=
  sync_origin { o with tf := treefile_set_cliwrap o.tf b }

/-- The auxiliary toggle operations of §4.7, as invocable actions. -/
inductive ToggleOp where
  | addModules (ms : List Str) (enableOnly : Bool)
  | removeModules (ms : List Str) (enableOnly : Bool)
  | etcTrack (paths : List Str)
  | etcUntrack (paths : List Str)
  | etcUntrackAll
  | setRegenerateInitramfs (r : Bool) (args : List Str)
  | setCliwrap (b : Bool)
  | setOverrideCommit (c : Option Str)
  deriving DecidableEq, Repr

/-- Dispatch a toggle; the second component is the change report the C
signature returns to the caller (`none` for the void setters). -/
def applyToggle : ToggleOp → Origin → Origin × Option Bool
  | .addModules ms eo, o =>
    ((rpmostree_origin_add_modules o ms eo).1, some (rpmostree_origin_add_modules o ms eo).2)
  | .removeModules ms eo, o =>
    ((rpmostree_origin_remove_modules o ms eo).1,
      some (rpmostree_origin_remove_modules o ms eo).2)
  | .etcTrack paths, o =>
    ((rpmostree_origin_initramfs_etc_files_track o paths).1,
      some (rpmostree_origin_initramfs_etc_files_track o paths).2)
  | .etcUntrack paths, o =>
    ((rpmostree_origin_initramfs_etc_files_untrack o paths).1,
      some (rpmostree_origin_initramfs_etc_files_untrack o paths).2)
  | .etcUntrackAll, o =>
    ((rpmostree_origin_initramfs_etc_files_untrack_all o).1,
      some (rpmostree_origin_initramfs_etc_files_untrack_all o).2)
  | .setRegenerateInitramfs r args, o => (rpmostree_origin_set_regenerate_initramfs o r args, none)
  | .setCliwrap b, o => (rpmostree_origin_set_cliwrap o b, none)
  | .setOverrideCommit c, o => (rpmostree_origin_set_override_commit o c, none)

/-- A public mutation, for quantifying over "any mutator" (claim C6). -/
inductive Mutation where
  | removePackages (pkgs : Option (List Str)) (allowNoent : Bool)
  | addPackages (pkgs : List Str) (allowExisting : Bool)
  | toggle (op : ToggleOp)
  deriving DecidableEq, Repr

def applyMutation : Mutation → Origin → Origin
  | .removePackages ps noent, o => (rpmostree_origin_remove_packages o ps noent none).origin
  | .addPackages ps ae, o => (rpmostree_origin_add_packages o ps ae none).origin
  | .toggle op, o => (applyToggle op o).1

/-! ## A store of origin records

`RpmOstreeOrigin` values live behind pointers and are mutated in place; to
state duplicate-independence (claim C6) the heap is modelled as a list of
records, a record as an index, `rpmostree_origin_dup` as allocation of a
fresh parsed record, and an in-place mutation as an update of one index. -/

def dupAt (s : List Origin) (i : Nat) : List Origin :=
  match s.get? i with
  | none => s
  | some o =>
    match rpmostree_origin_dup o with
    | .ok c => s ++ [c]
    | .error _ => s

def applyMutationAt (s : List Origin) (i : Nat) (m : Mutation) : List Origin :=
  match s.get? i with
  | none => s
  | some o => s.set i (applyMutation m o)

/-! ## Cache fidelity (invariant I2) -/

/-- Each cache's contents equal the parsed contents of its flat-record
section, exactly as construction would populate them. -/
def cacheFidelity (o : Origin) : Prop :=
  parse_packages_strv o.kf .requested false [] = .ok o.cachedPackages ∧
  parse_packages_strv o.kf .requestedLocal true [] = .ok o.cachedLocalPackages ∧
  parse_packages_strv o.kf .requestedLocalFileoverride true [] =
    .ok o.cachedLocalFileoverridePackages ∧
  parse_packages_strv o.kf .overridesRemove false [] = .ok o.cachedOverridesRemove ∧
  parse_packages_strv o.kf .overridesReplaceLocal true [] = .ok o.cachedOverridesLocalReplace

instance (o : Origin) : Decidable (cacheFidelity o) := by
  unfold cacheFidelity
  have d1 : Decidable (parse_packages_strv o.kf .requested false [] = .ok o.cachedPackages) :=
    inferInstance
  have d2 : Decidable
      (parse_packages_strv o.kf .requestedLocal true [] = .ok o.cachedLocalPackages) :=
    inferInstance
  have d3 : Decidable (parse_packages_strv o.kf .requestedLocalFileoverride true [] =
      .ok o.cachedLocalFileoverridePackages) := inferInstance
  have d4 : Decidable
      (parse_packages_strv o.kf .overridesRemove false [] = .ok o.cachedOverridesRemove) :=
    inferInstance
  have d5 : Decidable (parse_packages_strv o.kf .overridesReplaceLocal true [] =
      .ok o.cachedOverridesLocalReplace) := inferInstance
  exact @instDecidableAnd _ _ d1 (@instDecidableAnd _ _ d2
    (@instDecidableAnd _ _ d3 (@instDecidableAnd _ _ d4 d5)))

/-! ## Concrete records used by counterexamples and witnesses -/

/-- A flat record requesting the single remote package "foo". -/
def sampleKf : KeyFile :=
  { refspec := strL "test:ref"
    unconfiguredState := none
    pkgsRequested := some [strL "foo"]
    pkgsRequestedLocal := none
    pkgsRequestedLocalFileoverride := none
    overridesRemove := none
    overridesReplaceLocal := none
    modulesEnable := none
    modulesInstall := none
    initramfsRegenerate := none
    initramfsArgs := none
    initramfsEtc := none
    cliwrap := none
    overrideCommit := none }

/-- The origin record parsed from `sampleKf`. -/
def sampleOrigin : Origin :=
  { tf := origin_to_treefile sampleKf
    kf := sampleKf
    cachedUnconfiguredState := none
    cachedPackages := [(strL "foo", none)]
    cachedLocalPackages := []
    cachedLocalFileoverridePackages := []
    cachedOverridesLocalReplace := []
    cachedOverridesRemove := [] }

/-- A flat record requesting the remote packages "vim" and "foo". -/
def vfKf : KeyFile :=
  { sampleKf with pkgsRequested := some [strL "vim", strL "foo"] }

/-- The origin record parsed from `vfKf`. -/
def vfOrigin : Origin :=
  { sampleOrigin with
    kf := vfKf
    tf := origin_to_treefile vfKf
    cachedPackages := [(strL "vim", none), (strL "foo", none)] }

/-- A flat record with remote request "foo" and the local package
`foo-1.0-1.x86_64` (hash `aa11`), the disambiguation example of §8. -/
def exKf : KeyFile :=
  { sampleKf with pkgsRequestedLocal := some [strL "aa11:foo-1.0-1.x86_64"] }

/-- The origin record parsed from `exKf`. -/
def exOrigin : Origin :=
  { sampleOrigin with
    kf := exKf
    tf := origin_to_treefile exKf
    cachedLocalPackages := [(strL "foo-1.0-1.x86_64", some (strL "aa11"))] }

/-- Well-formedness of a set-style cache: keys are distinct and every
value is NULL. -/
def setWF (t : Tbl) : Prop := (tblKeys t).Nodup ∧ ∀ kv ∈ t, kv.2 = none

/-- Well-formedness of a map-style cache: keys are distinct and every
value is a colon-free content hash. -/
def mapWF (t : Tbl) : Prop :=
  (tblKeys t).Nodup ∧ ∀ kv ∈ t, ∃ v, kv.2 = some v ∧ ':' ∉ v

/-- Well-formedness of the loop state: the three caches satisfy the shape
that parsing establishes. -/
def stWF (st : RemoveSt) : Prop := setWF st.pkgs ∧ mapWF st.localPkgs ∧ mapWF st.localFo

/-- A flat record is normalized when it is a fixed point of the adapter
round trip; construction establishes this shape and every mutation
preserves it. -/
def kfNormalized (kf : KeyFile) : Prop :=
  treefile_to_origin (origin_to_treefile kf) = kf

instance (kf : KeyFile) : Decidable (kfNormalized kf) := by
  unfold kfNormalized; infer_instance

/-- A flat record whose requested-local section holds a token with no
colon, so it cannot decompose into hash plus identifier. -/
def badKf : KeyFile := { sampleKf with pkgsRequestedLocal := some [strL "nocolon"] }

/-! ## Lemmas about splitting and joining strings -/

theorem splitOnChar_ne_nil (c : Char) (l : List Char) : splitOnChar c l ≠ [] := by
  induction l with
  | nil => simp [splitOnChar]
  | cons a t ih =>
    simp only [splitOnChar]
    split
    · simp
    · cases h : splitOnChar c t with
      | nil => simp
      | cons hh r => simp

theorem splitOnChar_append (c : Char) (v k : List Char) (h : c ∉ v) :
    splitOnChar c (v ++ c :: k) = v :: splitOnChar c k := by
  induction v with
  | nil => simp [splitOnChar]
  | cons a t ih =>
    have ha : ¬(a = c) := fun e => h (by simp [e])
    have ih' := ih (fun hm => h (List.mem_cons_of_mem _ hm))
    simp only [List.cons_append, splitOnChar, if_neg ha, List.append_eq, ih']

theorem joinWith_cons_cons (c : Char) (a : Char) (h : List Char) (r : List (List Char)) :
    joinWith c ((a :: h) :: r) = a :: joinWith c (h :: r) := by
  cases r <;> simp [joinWith]

theorem joinWith_splitOnChar (c : Char) (l : List Char) :
    joinWith c (splitOnChar c l) = l := by
  induction l with
  | nil => rfl
  | cons a t ih =>
    simp only [splitOnChar]
    split
    · rename_i hac
      cases hr : splitOnChar c t with
      | nil => exact absurd hr (splitOnChar_ne_nil c t)
      | cons hh r =>
        rw [hr] at ih
        simp [joinWith, ih, hac]
    · cases hr : splitOnChar c t with
      | nil => exact absurd hr (splitOnChar_ne_nil c t)
      | cons hh r =>
        rw [hr] at ih
        rw [joinWith_cons_cons, ih]

theorem splitOnChar_pieces (c : Char) (l : List Char) :
    ∀ x ∈ splitOnChar c l, c ∉ x := by
  induction l with
  | nil =>
    intro x hx
    simp [splitOnChar] at hx
    simp [hx]
  | cons a t ih =>
    simp only [splitOnChar]
    split
    · intro x hx
      rcases List.mem_cons.mp hx with h1 | h2
      · simp [h1]
      · exact ih x h2
    · rename_i hac
      cases hr : splitOnChar c t with
      | nil => exact absurd hr (splitOnChar_ne_nil c t)
      | cons hh r =>
        intro x hx
        rcases List.mem_cons.mp hx with h1 | h2
        · subst h1
          intro hcm
          rcases List.mem_cons.mp hcm with h3 | h4
          · exact hac h3.symm
          · exact ih hh (hr ▸ List.mem_cons_self hh r) h4
        · exact ih x (hr ▸ List.mem_cons_of_mem hh h2)

theorem decompose_concat (v k : Str) (h : ':' ∉ v) :
    rpmostree_decompose_sha256_nevra (v ++ ':' :: k) = some (v, k) := by
  unfold rpmostree_decompose_sha256_nevra
  rw [splitOnChar_append ':' v k h]
  cases hk : splitOnChar ':' k with
  | nil => exact absurd hk (splitOnChar_ne_nil ':' k)
  | cons hh r =>
    have hj : joinWith ':' (hh :: r) = k := by
      rw [← hk]; exact joinWith_splitOnChar ':' k
    simp [hj]

theorem decompose_sha_not_colon (s sha nevra : Str)
    (h : rpmostree_decompose_sha256_nevra s = some (sha, nevra)) : ':' ∉ sha := by
  unfold rpmostree_decompose_sha256_nevra at h
  cases hs : splitOnChar ':' s with
  | nil => rw [hs] at h; simp at h
  | cons hh r =>
    cases r with
    | nil => rw [hs] at h; simp at h
    | cons h2 r2 =>
      rw [hs] at h
      injection h with hp
      injection hp with hfst hsnd
      have hmem : sha ∈ splitOnChar ':' s := by
        rw [hs, ← hfst]; exact List.mem_cons_self _ _
      exact splitOnChar_pieces ':' s sha hmem

/-! ## Lemmas about the hash-table model -/

theorem tblKeys_nil : tblKeys [] = [] := rfl

theorem tblKeys_cons (kv : Str × Option Str) (t : Tbl) :
    tblKeys (kv :: t) = kv.1 :: tblKeys t := rfl

theorem tblReplace_not_mem (k : Str) (v : Option Str) (t : Tbl) (h : k ∉ tblKeys t) :
    tblReplace k v t = t ++ [(k, v)] := by
  induction t with
  | nil => rfl
  | cons kv rest ih =>
    have hk : ¬(kv.1 = k) := fun e => h (by simp [tblKeys, e])
    have h' : k ∉ tblKeys rest := fun hm => h (by simp [tblKeys] at hm ⊢; exact Or.inr hm)
    simp [tblReplace, if_neg hk, ih h']

theorem tblKeys_replace_mem (k : Str) (v : Option Str) (t : Tbl) (h : k ∈ tblKeys t) :
    tblKeys (tblReplace k v t) = tblKeys t := by
  induction t with
  | nil => simp [tblKeys] at h
  | cons kv rest ih =>
    by_cases hk : kv.1 = k
    · simp [tblReplace, if_pos hk, tblKeys, hk]
    · have h' : k ∈ tblKeys rest := by
        rcases List.mem_cons.mp h with h1 | h2
        · exact absurd h1.symm hk
        · exact h2
      simp only [tblReplace, if_neg hk, tblKeys_cons, ih h']

theorem mem_tblReplace (kv' : Str × Option Str) (k : Str) (v : Option Str) (t : Tbl)
    (h : kv' ∈ tblReplace k v t) : kv' ∈ t ∨ kv' = (k, v) := by
  induction t with
  | nil => simp [tblReplace] at h; exact Or.inr h
  | cons kv rest ih =>
    by_cases hk : kv.1 = k
    · simp only [tblReplace, if_pos hk] at h
      rcases List.mem_cons.mp h with h1 | h2
      · exact Or.inr h1
      · exact Or.inl (List.mem_cons_of_mem _ h2)
    · simp only [tblReplace, if_neg hk] at h
      rcases List.mem_cons.mp h with h1 | h2
      · exact Or.inl (h1 ▸ List.mem_cons_self kv rest)
      · rcases ih h2 with h3 | h4
        · exact Or.inl (List.mem_cons_of_mem _ h3)
        · exact Or.inr h4

theorem tblRemove_keys_sublist (k : Str) (t : Tbl) :
    (tblKeys (tblRemove k t).1).Sublist (tblKeys t) := by
  induction t with
  | nil => simp [tblRemove]
  | cons kv rest ih =>
    simp only [tblRemove]
    split
    · exact List.Sublist.cons kv.1 (List.Sublist.refl _)
    · exact List.Sublist.cons₂ kv.1 ih

theorem mem_tblRemove (kv' : Str × Option Str) (k : Str) (t : Tbl)
    (h : kv' ∈ (tblRemove k t).1) : kv' ∈ t := by
  induction t with
  | nil => simp [tblRemove] at h
  | cons kv rest ih =>
    simp only [tblRemove] at h
    split at h
    · exact List.mem_cons_of_mem _ h
    · rcases List.mem_cons.mp h with h1 | h2
      · exact h1 ▸ List.mem_cons_self kv rest
      · exact List.mem_cons_of_mem _ (ih h2)

theorem setWF_nil : setWF [] := ⟨List.nodup_nil, by simp⟩

theorem mapWF_nil : mapWF [] := ⟨List.nodup_nil, by simp⟩

theorem setWF_add (k : Str) (t : Tbl) (h : setWF t) : setWF (tblAdd k t) := by
  unfold tblAdd
  by_cases hk : k ∈ tblKeys t
  · refine ⟨by rw [tblKeys_replace_mem k none t hk]; exact h.1, ?_⟩
    intro kv hkv
    rcases mem_tblReplace kv k none t hkv with h1 | h2
    · exact h.2 kv h1
    · simp [h2]
  · rw [tblReplace_not_mem k none t hk]
    constructor
    · have hkeys : tblKeys (t ++ [(k, none)]) = tblKeys t ++ [k] := by simp [tblKeys]
      have hdisj : (tblKeys t).Disjoint [k] := by
        intro a ha hb
        rw [List.mem_singleton] at hb
        exact hk (hb ▸ ha)
      rw [hkeys, List.nodup_append]
      exact ⟨h.1, List.nodup_singleton k, hdisj⟩
    · intro kv hkv
      rcases List.mem_append.mp hkv with h1 | h2
      · exact h.2 kv h1
      · simp at h2; simp [h2]

theorem mapWF_replace (k : Str) (v : Str) (t : Tbl) (hv : ':' ∉ v) (h : mapWF t) :
    mapWF (tblReplace k (some v) t) := by
  by_cases hk : k ∈ tblKeys t
  · refine ⟨by rw [tblKeys_replace_mem k (some v) t hk]; exact h.1, ?_⟩
    intro kv hkv
    rcases mem_tblReplace kv k (some v) t hkv with h1 | h2
    · exact h.2 kv h1
    · exact ⟨v, by simp [h2], hv⟩
  · rw [tblReplace_not_mem k (some v) t hk]
    constructor
    · have hkeys : tblKeys (t ++ [(k, some v)]) = tblKeys t ++ [k] := by simp [tblKeys]
      have hdisj : (tblKeys t).Disjoint [k] := by
        intro a ha hb
        rw [List.mem_singleton] at hb
        exact hk (hb ▸ ha)
      rw [hkeys, List.nodup_append]
      exact ⟨h.1, List.nodup_singleton k, hdisj⟩
    · intro kv hkv
      rcases List.mem_append.mp hkv with h1 | h2
      · exact h.2 kv h1
      · simp at h2
        exact ⟨v, by simp [h2], hv⟩

theorem setWF_remove (k : Str) (t : Tbl) (h : setWF t) : setWF (tblRemove k t).1 :=
  ⟨List.Nodup.sublist (tblRemove_keys_sublist k t) h.1,
   fun kv hkv => h.2 kv (mem_tblRemove kv k t hkv)⟩

theorem mapWF_remove (k : Str) (t : Tbl) (h : mapWF t) : mapWF (tblRemove k t).1 :=
  ⟨List.Nodup.sublist (tblRemove_keys_sublist k t) h.1,
   fun kv hkv => h.2 kv (mem_tblRemove kv k t hkv)⟩

/-! ## Lemmas about `parse_packages_strv` -/

theorem parseSet_ok (toks : List Str) : ∀ ht : Tbl, ∃ r, parsePkgTokens false toks ht = .ok r := by
  induction toks with
  | nil => intro ht; exact ⟨ht, rfl⟩
  | cons tok rest ih =>
    intro ht
    simpa only [parsePkgTokens] using ih (tblAdd tok ht)

theorem parseSet_WF (toks : List Str) :
    ∀ ht r : Tbl, setWF ht → parsePkgTokens false toks ht = .ok r → setWF r := by
  induction toks with
  | nil =>
    intro ht r hwf h
    simp only [parsePkgTokens] at h
    injection h with h'
    exact h' ▸ hwf
  | cons tok rest ih =>
    intro ht r hwf h
    simp only [parsePkgTokens] at h
    exact ih (tblAdd tok ht) r (setWF_add tok ht hwf) h

theorem parseMap_WF (toks : List Str) :
    ∀ ht r : Tbl, mapWF ht → parsePkgTokens true toks ht = .ok r → mapWF r := by
  induction toks with
  | nil =>
    intro ht r hwf h
    simp only [parsePkgTokens] at h
    injection h with h'
    exact h' ▸ hwf
  | cons tok rest ih =>
    intro ht r hwf h
    simp only [parsePkgTokens] at h
    cases hd : rpmostree_decompose_sha256_nevra tok with
    | none => rw [hd] at h; exact absurd h (by simp)
    | some sn =>
      rw [hd] at h
      have hcolon : ':' ∉ sn.1 := decompose_sha_not_colon tok sn.1 sn.2 (by rw [hd])
      exact ih _ r (mapWF_replace sn.2 sn.1 ht hcolon hwf) h

theorem parseMap_err_shape (toks : List Str) :
    ∀ (ht : Tbl) (e : OriginError), parsePkgTokens true toks ht = .error e →
      ∃ t, e = OriginError.malformedSpec t := by
  induction toks with
  | nil => intro ht e h; exact absurd h (by simp [parsePkgTokens])
  | cons tok rest ih =>
    intro ht e h
    simp only [parsePkgTokens] at h
    cases hd : rpmostree_decompose_sha256_nevra tok with
    | none =>
      rw [hd] at h
      injection h with h'
      exact ⟨tok, h'.symm⟩
    | some sn =>
      rw [hd] at h
      exact ih _ e h

theorem parseMap_bad (toks : List Str) (tok : Str) (hmem : tok ∈ toks)
    (hbad : rpmostree_decompose_sha256_nevra tok = none) :
    ∀ ht : Tbl, ∃ t, parsePkgTokens true toks ht = .error (OriginError.malformedSpec t) := by
  induction toks with
  | nil => simp at hmem
  | cons tok0 rest ih =>
    intro ht
    rcases List.mem_cons.mp hmem with h1 | h2
    · subst h1
      exact ⟨tok, by simp [parsePkgTokens, hbad]⟩
    · simp only [parsePkgTokens]
      cases hd : rpmostree_decompose_sha256_nevra tok0 with
      | none => exact ⟨tok0, by simp⟩
      | some sn => exact ih h2 _

theorem parseSet_of_keys (c : Tbl) :
    ∀ acc : Tbl, setWF c → (∀ k ∈ tblKeys c, k ∉ tblKeys acc) →
      parsePkgTokens false (tblKeys c) acc = .ok (acc ++ c) := by
  induction c with
  | nil => intro acc _ _; simp [tblKeys, parsePkgTokens]
  | cons kv rest ih =>
    intro acc hwf hdisj
    have hv : kv.2 = none := hwf.2 kv (List.mem_cons_self kv rest)
    have hknotacc : kv.1 ∉ tblKeys acc :=
      hdisj kv.1 (by simp [tblKeys_cons])
    have hknotrest : kv.1 ∉ tblKeys rest := by
      have := hwf.1
      rw [tblKeys_cons, List.nodup_cons] at this
      exact this.1
    have hadd : tblAdd kv.1 acc = acc ++ [(kv.1, none)] :=
      tblReplace_not_mem kv.1 none acc hknotacc
    have hwfrest : setWF rest :=
      ⟨by have := hwf.1; rw [tblKeys_cons, List.nodup_cons] at this; exact this.2,
       fun kv' h' => hwf.2 kv' (List.mem_cons_of_mem kv h')⟩
    have hdisj' : ∀ k ∈ tblKeys rest, k ∉ tblKeys (acc ++ [(kv.1, none)]) := by
      intro k hk hkm
      have : tblKeys (acc ++ [(kv.1, none)]) = tblKeys acc ++ [kv.1] := by simp [tblKeys]
      rw [this] at hkm
      rcases List.mem_append.mp hkm with h1 | h2
      · exact hdisj k (by rw [tblKeys_cons]; exact List.mem_cons_of_mem _ hk) h1
      · rw [List.mem_singleton] at h2
        exact hknotrest (h2 ▸ hk)
    have hstep := ih (acc ++ [(kv.1, none)]) hwfrest hdisj'
    rw [tblKeys_cons]
    simp only [parsePkgTokens, hadd, hstep]
    have : kv = (kv.1, none) := by
      cases kv; simp at hv; simp [hv]
    rw [List.append_assoc]
    simp [← this]

theorem parseMap_of_serialized (c : Tbl) :
    ∀ acc : Tbl, mapWF c → (∀ k ∈ tblKeys c, k ∉ tblKeys acc) →
      parsePkgTokens true (c.map serializeMapTok) acc = .ok (acc ++ c) := by
  induction c with
  | nil => intro acc _ _; simp [parsePkgTokens]
  | cons kv rest ih =>
    intro acc hwf hdisj
    rcases hwf.2 kv (List.mem_cons_self kv rest) with ⟨v, hv, hvcolon⟩
    have hknotacc : kv.1 ∉ tblKeys acc :=
      hdisj kv.1 (by simp [tblKeys_cons])
    have hknotrest : kv.1 ∉ tblKeys rest := by
      have := hwf.1
      rw [tblKeys_cons, List.nodup_cons] at this
      exact this.1
    have htok : serializeMapTok kv = v ++ ':' :: kv.1 := by
      simp [serializeMapTok, hv]
    have hdecomp : rpmostree_decompose_sha256_nevra (serializeMapTok kv) = some (v, kv.1) := by
      rw [htok]; exact decompose_concat v kv.1 hvcolon
    have hrepl : tblReplace kv.1 (some v) acc = acc ++ [(kv.1, some v)] :=
      tblReplace_not_mem kv.1 (some v) acc hknotacc
    have hwfrest : mapWF rest :=
      ⟨by have := hwf.1; rw [tblKeys_cons, List.nodup_cons] at this; exact this.2,
       fun kv' h' => hwf.2 kv' (List.mem_cons_of_mem kv h')⟩
    have hdisj' : ∀ k ∈ tblKeys rest, k ∉ tblKeys (acc ++ [(kv.1, some v)]) := by
      intro k hk hkm
      have : tblKeys (acc ++ [(kv.1, some v)]) = tblKeys acc ++ [kv.1] := by simp [tblKeys]
      rw [this] at hkm
      rcases List.mem_append.mp hkm with h1 | h2
      · exact hdisj k (by rw [tblKeys_cons]; exact List.mem_cons_of_mem _ hk) h1
      · rw [List.mem_singleton] at h2
        exact hknotrest (h2 ▸ hk)
    have hstep := ih (acc ++ [(kv.1, some v)]) hwfrest hdisj'
    simp only [List.map_cons, parsePkgTokens, hdecomp, hrepl, hstep]
    have : kv = (kv.1, some v) := by
      cases kv; simp at hv; simp [hv]
    rw [List.append_assoc]
    simp [← this]

/-! ## Lemmas about the removal loop -/

theorem tblContains_eq_remove_snd (k : Str) (t : Tbl) :
    tblContains k t = (tblRemove k t).2 := by
  induction t with
  | nil => rfl
  | cons kv rest ih =>
    simp only [tblContains, tblRemove]
    split <;> simp [ih]

theorem removeViaNameMaps_state (a : Bool) (st : RemoveSt) (m1 m2 : Tbl) (p : Str) :
    ((removeViaNameMaps a st m1 m2 p).1.pkgs = st.pkgs ∧
     (removeViaNameMaps a st m1 m2 p).1.chPkgs = st.chPkgs ∧
     (removeViaNameMaps a st m1 m2 p).1.maps = st.maps) ∧
    ((removeViaNameMaps a st m1 m2 p).1.chLocal = false →
      (removeViaNameMaps a st m1 m2 p).1.localPkgs = st.localPkgs ∧ st.chLocal = false) ∧
    ((removeViaNameMaps a st m1 m2 p).1.chFo = false →
      (removeViaNameMaps a st m1 m2 p).1.localFo = st.localFo ∧ st.chFo = false) ∧
    (stWF st → stWF (removeViaNameMaps a st m1 m2 p).1) := by
  unfold removeViaNameMaps stWF
  split
  · split
    · exact ⟨⟨rfl, rfl, rfl⟩, by simp, fun h => ⟨rfl, h⟩,
        fun h => ⟨h.1, mapWF_remove _ _ h.2.1, h.2.2⟩⟩
    · exact ⟨⟨rfl, rfl, rfl⟩, fun h => ⟨rfl, h⟩, fun h => ⟨rfl, h⟩, fun h => h⟩
  · split
    · split
      · exact ⟨⟨rfl, rfl, rfl⟩, fun h => ⟨rfl, h⟩, by simp,
          fun h => ⟨h.1, h.2.1, mapWF_remove _ _ h.2.2⟩⟩
      · exact ⟨⟨rfl, rfl, rfl⟩, fun h => ⟨rfl, h⟩, fun h => ⟨rfl, h⟩, fun h => h⟩
    · split
      · exact ⟨⟨rfl, rfl, rfl⟩, fun h => ⟨rfl, h⟩, fun h => ⟨rfl, h⟩, fun h => h⟩
      · exact ⟨⟨rfl, rfl, rfl⟩, fun h => ⟨rfl, h⟩, fun h => ⟨rfl, h⟩, fun h => h⟩

theorem removeViaNameMaps_maps_state (a : Bool) (st : RemoveSt) (m1 m2 : Tbl) (p : Str) :
    ((removeViaNameMaps a { st with maps := some (m1, m2) } m1 m2 p).1.chPkgs = false →
      (removeViaNameMaps a { st with maps := some (m1, m2) } m1 m2 p).1.pkgs = st.pkgs ∧
        st.chPkgs = false) ∧
    ((removeViaNameMaps a { st with maps := some (m1, m2) } m1 m2 p).1.chLocal = false →
      (removeViaNameMaps a { st with maps := some (m1, m2) } m1 m2 p).1.localPkgs =
        st.localPkgs ∧ st.chLocal = false) ∧
    ((removeViaNameMaps a { st with maps := some (m1, m2) } m1 m2 p).1.chFo = false →
      (removeViaNameMaps a { st with maps := some (m1, m2) } m1 m2 p).1.localFo =
        st.localFo ∧ st.chFo = false) ∧
    (stWF st → stWF (removeViaNameMaps a { st with maps := some (m1, m2) } m1 m2 p).1) := by
  have hm := removeViaNameMaps_state a { st with maps := some (m1, m2) } m1 m2 p
  exact ⟨fun h => ⟨hm.1.1, hm.1.2.1.symm.trans h⟩, hm.2.1, hm.2.2.1, hm.2.2.2⟩

theorem removeOne_state (a : Bool) (st : RemoveSt) (p : Str) :
    ((removeOne a st p).1.chPkgs = false →
      (removeOne a st p).1.pkgs = st.pkgs ∧ st.chPkgs = false) ∧
    ((removeOne a st p).1.chLocal = false →
      (removeOne a st p).1.localPkgs = st.localPkgs ∧ st.chLocal = false) ∧
    ((removeOne a st p).1.chFo = false →
      (removeOne a st p).1.localFo = st.localFo ∧ st.chFo = false) ∧
    (stWF st → stWF (removeOne a st p).1) := by
  unfold removeOne
  split
  · exact ⟨fun h => ⟨rfl, h⟩, by simp, fun h => ⟨rfl, h⟩,
      fun h => ⟨h.1, mapWF_remove _ _ h.2.1, h.2.2⟩⟩
  · split
    · exact ⟨fun h => ⟨rfl, h⟩, fun h => ⟨rfl, h⟩, by simp,
        fun h => ⟨h.1, h.2.1, mapWF_remove _ _ h.2.2⟩⟩
    · split
      · exact ⟨by simp, fun h => ⟨rfl, h⟩, fun h => ⟨rfl, h⟩,
          fun h => ⟨setWF_remove _ _ h.1, h.2.1, h.2.2⟩⟩
      · split
        · rename_i ms hms
          have hm := removeViaNameMaps_state a st ms.1 ms.2 p
          exact ⟨fun h => ⟨hm.1.1, hm.1.2.1.symm.trans h⟩,
            hm.2.1, hm.2.2.1, hm.2.2.2⟩
        · split
          · exact ⟨fun h => ⟨rfl, h⟩, fun h => ⟨rfl, h⟩, fun h => ⟨rfl, h⟩, fun h => h⟩
          · split
            · exact ⟨fun h => ⟨rfl, h⟩, fun h => ⟨rfl, h⟩, fun h => ⟨rfl, h⟩, fun h => h⟩
            · exact removeViaNameMaps_maps_state a st _ _ p

theorem removeLoop_state (a : Bool) (ps : List Str) :
    ∀ st : RemoveSt,
    ((removeLoop a st ps).1.chPkgs = false →
      (removeLoop a st ps).1.pkgs = st.pkgs ∧ st.chPkgs = false) ∧
    ((removeLoop a st ps).1.chLocal = false →
      (removeLoop a st ps).1.localPkgs = st.localPkgs ∧ st.chLocal = false) ∧
    ((removeLoop a st ps).1.chFo = false →
      (removeLoop a st ps).1.localFo = st.localFo ∧ st.chFo = false) ∧
    (stWF st → stWF (removeLoop a st ps).1) := by
  induction ps with
  | nil => intro st; exact ⟨fun h => ⟨rfl, h⟩, fun h => ⟨rfl, h⟩, fun h => ⟨rfl, h⟩, fun h => h⟩
  | cons p rest ih =>
    intro st
    have hone := removeOne_state a st p
    simp only [removeLoop]
    cases hro : removeOne a st p with
    | mk st' e =>
      cases e with
      | none =>
        have ih' := ih st'
        rw [hro] at hone
        simp only at hone ih' ⊢
        refine ⟨?_, ?_, ?_, ?_⟩
        · intro h
          have h1 := ih'.1 h
          have h2 := hone.1 h1.2
          exact ⟨h1.1.trans h2.1, h2.2⟩
        · intro h
          have h1 := ih'.2.1 h
          have h2 := hone.2.1 h1.2
          exact ⟨h1.1.trans h2.1, h2.2⟩
        · intro h
          have h1 := ih'.2.2.1 h
          have h2 := hone.2.2.1 h1.2
          exact ⟨h1.1.trans h2.1, h2.2⟩
        · intro h
          exact ih'.2.2.2 (hone.2.2.2 h)
      | some e' =>
        rw [hro] at hone
        simp only at hone ⊢
        exact hone

/-! ## Lemmas about key-file sections and the write-back -/

theorem kfGetSection_set_self (kf : KeyFile) (sec : OriginSection) (l : List Str) :
    kfGetSection (kfSetSection kf sec l) sec = some l := by
  cases sec <;> rfl

theorem kfGetSection_set_ne (kf : KeyFile) (sec sec' : OriginSection) (l : List Str)
    (h : sec' ≠ sec) : kfGetSection (kfSetSection kf sec l) sec' = kfGetSection kf sec' := by
  cases sec <;> cases sec' <;> first | exact absurd rfl h | rfl

theorem kfGetSection_remove_self (kf : KeyFile) (sec : OriginSection) :
    kfGetSection (kfRemoveSection kf sec) sec = none := by
  cases sec <;> rfl

theorem kfGetSection_remove_ne (kf : KeyFile) (sec sec' : OriginSection)
    (h : sec' ≠ sec) : kfGetSection (kfRemoveSection kf sec) sec' = kfGetSection kf sec' := by
  cases sec <;> cases sec' <;> first | exact absurd rfl h | rfl

theorem kfGetSection_update_ne (kf : KeyFile) (sec : OriginSection) (pkgs : Tbl) (b : Bool)
    (sec' : OriginSection) (h : sec' ≠ sec) :
    kfGetSection (update_keyfile_pkgs_from_cache kf sec pkgs b) sec' = kfGetSection kf sec' := by
  unfold update_keyfile_pkgs_from_cache update_string_list_from_hash_table
  split
  · exact kfGetSection_remove_ne kf sec sec' h
  · split
    · exact kfGetSection_set_ne kf sec sec' _ h
    · exact kfGetSection_set_ne kf sec sec' _ h

theorem kfGetSection_update_self (kf : KeyFile) (sec : OriginSection) (pkgs : Tbl) (b : Bool) :
    kfGetSection (update_keyfile_pkgs_from_cache kf sec pkgs b) sec =
      if pkgs = [] then none
      else some (if b then pkgs.map serializeMapTok else tblKeys pkgs) := by
  unfold update_keyfile_pkgs_from_cache update_string_list_from_hash_table
  by_cases hp : pkgs = []
  · simp [hp, kfGetSection_remove_self]
  · cases b <;> simp [hp, kfGetSection_set_self]

theorem writeBackKf_requested (kf : KeyFile) (st : RemoveSt) :
    kfGetSection (writeBackKf kf st) .requested =
      if st.chPkgs then (if st.pkgs = [] then none else some (tblKeys st.pkgs))
      else kfGetSection kf .requested := by
  unfold writeBackKf
  by_cases h1 : st.chPkgs <;> by_cases h2 : st.chLocal <;> by_cases h3 : st.chFo <;>
    simp [h1, h2, h3, kfGetSection_update_ne, kfGetSection_update_self]

theorem writeBackKf_requestedLocal (kf : KeyFile) (st : RemoveSt) :
    kfGetSection (writeBackKf kf st) .requestedLocal =
      if st.chLocal then
        (if st.localPkgs = [] then none else some (st.localPkgs.map serializeMapTok))
      else kfGetSection kf .requestedLocal := by
  unfold writeBackKf
  by_cases h1 : st.chPkgs <;> by_cases h2 : st.chLocal <;> by_cases h3 : st.chFo <;>
    simp [h1, h2, h3, kfGetSection_update_ne, kfGetSection_update_self]

theorem writeBackKf_requestedLocalFileoverride (kf : KeyFile) (st : RemoveSt) :
    kfGetSection (writeBackKf kf st) .requestedLocalFileoverride =
      if st.chFo then
        (if st.localFo = [] then none else some (st.localFo.map serializeMapTok))
      else kfGetSection kf .requestedLocalFileoverride := by
  unfold writeBackKf
  by_cases h1 : st.chPkgs <;> by_cases h2 : st.chLocal <;> by_cases h3 : st.chFo <;>
    simp [h1, h2, h3, kfGetSection_update_ne, kfGetSection_update_self]

theorem writeBackKf_overridesRemove (kf : KeyFile) (st : RemoveSt) :
    kfGetSection (writeBackKf kf st) .overridesRemove = kfGetSection kf .overridesRemove := by
  unfold writeBackKf
  by_cases h1 : st.chPkgs <;> by_cases h2 : st.chLocal <;> by_cases h3 : st.chFo <;>
    simp [h1, h2, h3, kfGetSection_update_ne]

theorem writeBackKf_overridesReplaceLocal (kf : KeyFile) (st : RemoveSt) :
    kfGetSection (writeBackKf kf st) .overridesReplaceLocal =
      kfGetSection kf .overridesReplaceLocal := by
  unfold writeBackKf
  by_cases h1 : st.chPkgs <;> by_cases h2 : st.chLocal <;> by_cases h3 : st.chFo <;>
    simp [h1, h2, h3, kfGetSection_update_ne]

/-! ## Adapter round-trip normalization -/

theorem origin_to_treefile_of_to_origin (tf : Treefile) :
    origin_to_treefile (treefile_to_origin tf) = tf := by
  have hl : ∀ l : List Str, (listToOpt l).getD [] = l := by
    intro l; unfold listToOpt; split <;> simp [*]
  have hb : ∀ b : Bool, (if b then some true else none).getD false = b := by
    intro b; cases b <;> rfl
  have hc : ∀ c : Str, ((if c = [] then none else some c : Option Str)).getD [] = c := by
    intro c; split <;> simp [*]
  cases tf with
  | mk r u p pl plf orr olr me mi ir ia ie cw oc =>
    simp [origin_to_treefile, treefile_to_origin, hl, hb, hc]

theorem parse_keyfile_shape (kfin : KeyFile) (o : Origin)
    (h : rpmostree_origin_parse_keyfile kfin = .ok o) :
    o.kf = treefile_to_origin (origin_to_treefile kfin) ∧
    o.tf = origin_to_treefile kfin ∧ kfNormalized o.kf := by
  unfold rpmostree_origin_parse_keyfile at h
  dsimp only at h
  split at h
  · exact absurd h (by simp)
  · split at h
    · exact absurd h (by simp)
    · split at h
      · exact absurd h (by simp)
      · split at h
        · exact absurd h (by simp)
        · split at h
          · exact absurd h (by simp)
          · injection h with h'
            subst h'
            refine ⟨rfl, rfl, ?_⟩
            show treefile_to_origin (origin_to_treefile (treefile_to_origin
              (origin_to_treefile kfin))) = treefile_to_origin (origin_to_treefile kfin)
            rw [origin_to_treefile_of_to_origin]

theorem parse_keyfile_fidelity (kfin : KeyFile) (o : Origin)
    (h : rpmostree_origin_parse_keyfile kfin = .ok o) : cacheFidelity o := by
  unfold rpmostree_origin_parse_keyfile at h
  dsimp only at h
  split at h
  · exact absurd h (by simp)
  · split at h
    · exact absurd h (by simp)
    · split at h
      · exact absurd h (by simp)
      · split at h
        · exact absurd h (by simp)
        · split at h
          · exact absurd h (by simp)
          · injection h with h'
            subst h'
            unfold cacheFidelity
            refine ⟨?_, ?_, ?_, ?_, ?_⟩ <;> assumption

/-! ## Cache fidelity: preservation through remove-packages -/

theorem fidelity_WF (o : Origin) (h : cacheFidelity o) :
    setWF o.cachedPackages ∧ mapWF o.cachedLocalPackages ∧
      mapWF o.cachedLocalFileoverridePackages :=
  ⟨parseSet_WF _ [] _ setWF_nil h.1, parseMap_WF _ [] _ mapWF_nil h.2.1,
   parseMap_WF _ [] _ mapWF_nil h.2.2.1⟩

theorem parse_of_set_cache (c : Tbl) (hwf : setWF c) :
    parsePkgTokens false (tblKeys c) [] = .ok c := by
  have h := parseSet_of_keys c [] hwf (by intro k _ hk; simp [tblKeys] at hk)
  simpa using h

theorem parse_of_map_cache (c : Tbl) (hwf : mapWF c) :
    parsePkgTokens true (c.map serializeMapTok) [] = .ok c := by
  have h := parseMap_of_serialized c [] hwf (by intro k _ hk; simp [tblKeys] at hk)
  simpa using h

theorem finishRemove_origin_fields (o : Origin) (st : RemoveSt) (out : Option Bool) :
    (finishRemove o st out).origin.kf = writeBackKf o.kf st ∧
    (finishRemove o st out).origin.cachedPackages = st.pkgs ∧
    (finishRemove o st out).origin.cachedLocalPackages = st.localPkgs ∧
    (finishRemove o st out).origin.cachedLocalFileoverridePackages = st.localFo ∧
    (finishRemove o st out).origin.cachedOverridesRemove = o.cachedOverridesRemove ∧
    (finishRemove o st out).origin.cachedOverridesLocalReplace =
      o.cachedOverridesLocalReplace := by
  unfold finishRemove sync_treefile applyCaches
  dsimp only
  split <;> exact ⟨rfl, rfl, rfl, rfl, rfl, rfl⟩

theorem finishRemove_fidelity (o : Origin) (st : RemoveSt) (out : Option Bool)
    (hfid : cacheFidelity o) (hWF : stWF st)
    (hP : st.chPkgs = false → st.pkgs = o.cachedPackages)
    (hL : st.chLocal = false → st.localPkgs = o.cachedLocalPackages)
    (hF : st.chFo = false → st.localFo = o.cachedLocalFileoverridePackages) :
    cacheFidelity (finishRemove o st out).origin := by
  obtain ⟨hkf, hc1, hc2, hc3, hc4, hc5⟩ := finishRemove_origin_fields o st out
  unfold cacheFidelity parse_packages_strv
  rw [hkf, hc1, hc2, hc3, hc4, hc5]
  refine ⟨?_, ?_, ?_, ?_, ?_⟩
  · rw [writeBackKf_requested]
    by_cases hch : st.chPkgs
    · rw [if_pos hch]
      by_cases hemp : st.pkgs = []
      · rw [if_pos hemp, hemp]
        rfl
      · rw [if_neg hemp]
        exact parse_of_set_cache st.pkgs hWF.1
    · rw [if_neg hch]
      rw [hP (Bool.not_eq_true st.chPkgs ▸ hch)]
      exact hfid.1
  · rw [writeBackKf_requestedLocal]
    by_cases hch : st.chLocal
    · rw [if_pos hch]
      by_cases hemp : st.localPkgs = []
      · rw [if_pos hemp, hemp]
        rfl
      · rw [if_neg hemp]
        exact parse_of_map_cache st.localPkgs hWF.2.1
    · rw [if_neg hch]
      rw [hL (Bool.not_eq_true st.chLocal ▸ hch)]
      exact hfid.2.1
  · rw [writeBackKf_requestedLocalFileoverride]
    by_cases hch : st.chFo
    · rw [if_pos hch]
      by_cases hemp : st.localFo = []
      · rw [if_pos hemp, hemp]
        rfl
      · rw [if_neg hemp]
        exact parse_of_map_cache st.localFo hWF.2.2
    · rw [if_neg hch]
      rw [hF (Bool.not_eq_true st.chFo ▸ hch)]
      exact hfid.2.2.1
  · rw [writeBackKf_overridesRemove]
    exact hfid.2.2.2.1
  · rw [writeBackKf_overridesReplaceLocal]
    exact hfid.2.2.2.2

theorem addPkgsGo_spec (ae : Bool) (ps : List Str) :
    ∀ (tf : Treefile) (ch : Bool) (tf1 : Treefile) (c : Bool),
      addPkgsGo ae tf ch ps = .ok (tf1, c) →
      (c = false → tf1 = tf ∧ ch = false) ∧
      tf.packages.length ≤ tf1.packages.length ∧
      (c = true → ch = true ∨ tf.packages.length < tf1.packages.length) := by
  induction ps with
  | nil =>
    intro tf ch tf1 c h
    simp only [addPkgsGo] at h
    injection h with h'
    injection h' with h1 h2
    subst h1; subst h2
    exact ⟨fun hc => ⟨rfl, hc⟩, le_refl _, fun hc => Or.inl hc⟩
  | cons p rest ih =>
    intro tf ch tf1 c h
    simp only [addPkgsGo] at h
    by_cases hreq : treefileRequestedAnywhere tf p = true
    · rw [if_pos hreq] at h
      by_cases hae : ae = true
      · rw [if_pos hae] at h
        exact ih tf ch tf1 c h
      · rw [if_neg hae] at h
        exact absurd h (by simp)
    · rw [if_neg hreq] at h
      have hi := ih { tf with packages := tf.packages ++ [p] } true tf1 c h
      refine ⟨?_, ?_, ?_⟩
      · intro hc
        rcases hi.1 hc with ⟨_, hcontra⟩
        exact absurd hcontra (by simp)
      · have hstep : tf.packages.length ≤
            ({ tf with packages := tf.packages ++ [p] } : Treefile).packages.length := by
          simp
        exact le_trans hstep hi.2.1
      · intro hc
        right
        have hstep : tf.packages.length <
            ({ tf with packages := tf.packages ++ [p] } : Treefile).packages.length := by
          simp
        exact lt_of_lt_of_le hstep hi.2.1

/-! ## Claim theorems -/

/-- C9: calling remove-packages with a NULL identifier list returns success
immediately, leaving the changed out-parameter, the flat record, the
structured config, and all caches exactly as they were. -/
theorem remove_null_packages_noop (o : Origin) (a : Bool) (out : Option Bool) :
    rpmostree_origin_remove_packages o none a out = ⟨o, out, none⟩ := rfl

/-- C1 (amended): when remove-packages fails, the flat record, the
structured config, the two override caches, and the changed out-parameter
are left exactly as before the call; the three requested caches, however,
may already reflect removals of identifiers processed earlier in the same
call (see the counterexample `remove_partial_mutation_cex`). -/
theorem remove_error_frame (o : Origin) (ps : Option (List Str)) (a : Bool)
    (out : Option Bool) (e : OriginError)
    (h : (rpmostree_origin_remove_packages o ps a out).err = some e) :
    (rpmostree_origin_remove_packages o ps a out).origin.kf = o.kf ∧
    (rpmostree_origin_remove_packages o ps a out).origin.tf = o.tf ∧
    (rpmostree_origin_remove_packages o ps a out).origin.cachedOverridesRemove =
      o.cachedOverridesRemove ∧
    (rpmostree_origin_remove_packages o ps a out).origin.cachedOverridesLocalReplace =
      o.cachedOverridesLocalReplace ∧
    (rpmostree_origin_remove_packages o ps a out).origin.cachedUnconfiguredState =
      o.cachedUnconfiguredState ∧
    (rpmostree_origin_remove_packages o ps a out).outChanged = out := by
  cases ps with
  | none => exact absurd h (by simp [rpmostree_origin_remove_packages])
  | some l =>
    cases hloop : removeLoop a (initRemoveSt o) l with
    | mk st e' =>
      cases e' with
      | none =>
        have hres : (rpmostree_origin_remove_packages o (some l) a out).err = none := by
          unfold rpmostree_origin_remove_packages
          dsimp only
          rw [hloop]
          rfl
        rw [hres] at h
        exact absurd h (by simp)
      | some e2 =>
        have hres : rpmostree_origin_remove_packages o (some l) a out =
            ⟨applyCaches o st, out, some e2⟩ := by
          unfold rpmostree_origin_remove_packages
          dsimp only
          rw [hloop]
        rw [hres]
        exact ⟨rfl, rfl, rfl, rfl, rfl, rfl⟩

/-- C1 witness: a concrete failing removal keeps the flat record, the
structured config, the override caches, and the out-parameter intact. -/
theorem remove_error_frame_witness :
    (rpmostree_origin_remove_packages vfOrigin (some [strL "vim", strL "bar"]) false
      (some false)).origin.kf = vfOrigin.kf ∧
    (rpmostree_origin_remove_packages vfOrigin (some [strL "vim", strL "bar"]) false
      (some false)).origin.tf = vfOrigin.tf ∧
    (rpmostree_origin_remove_packages vfOrigin (some [strL "vim", strL "bar"]) false
      (some false)).origin.cachedOverridesRemove = vfOrigin.cachedOverridesRemove ∧
    (rpmostree_origin_remove_packages vfOrigin (some [strL "vim", strL "bar"]) false
      (some false)).origin.cachedOverridesLocalReplace =
        vfOrigin.cachedOverridesLocalReplace ∧
    (rpmostree_origin_remove_packages vfOrigin (some [strL "vim", strL "bar"]) false
      (some false)).origin.cachedUnconfiguredState = vfOrigin.cachedUnconfiguredState ∧
    (rpmostree_origin_remove_packages vfOrigin (some [strL "vim", strL "bar"]) false
      (some false)).outChanged = some false :=
  remove_error_frame vfOrigin (some [strL "vim", strL "bar"]) false (some false)
    (OriginError.notRequested (strL "bar")) (by decide)

/-- C1 counterexample: on a record requesting "vim" and "foo", removing
["vim", "bar"] with allow-noent unset fails with NotRequested("bar"), yet
the RequestedRemote cache has already lost "vim" — the claim that all five
caches are unchanged on failure is false. -/
theorem remove_partial_mutation_cex :
    (rpmostree_origin_remove_packages vfOrigin (some [strL "vim", strL "bar"]) false
      (some false)).err = some (OriginError.notRequested (strL "bar")) ∧
    (rpmostree_origin_remove_packages vfOrigin (some [strL "vim", strL "bar"]) false
      (some false)).origin.cachedPackages ≠ vfOrigin.cachedPackages := by
  decide

/-- C2 (amended): cache fidelity holds after construction and is preserved
by every successful remove-packages call; it is not preserved by the
structured-config-driven mutations (see `cache_fidelity_cex`). -/
theorem cache_fidelity_construction_and_remove :
    (∀ (kfin : KeyFile) (o : Origin),
       rpmostree_origin_parse_keyfile kfin = .ok o → cacheFidelity o) ∧
    (∀ (o : Origin) (ps : Option (List Str)) (a : Bool) (out : Option Bool),
       cacheFidelity o →
       (rpmostree_origin_remove_packages o ps a out).err = none →
       cacheFidelity (rpmostree_origin_remove_packages o ps a out).origin) := by
  refine ⟨parse_keyfile_fidelity, ?_⟩
  intro o ps a out hfid herr
  cases ps with
  | none => exact hfid
  | some l =>
    cases hloop : removeLoop a (initRemoveSt o) l with
    | mk st e =>
      cases e with
      | some e' =>
        have hres : (rpmostree_origin_remove_packages o (some l) a out).err = some e' := by
          unfold rpmostree_origin_remove_packages
          dsimp only
          rw [hloop]
        rw [hres] at herr
        exact absurd herr (by simp)
      | none =>
        have hres : rpmostree_origin_remove_packages o (some l) a out =
            finishRemove o st out := by
          unfold rpmostree_origin_remove_packages
          dsimp only
          rw [hloop]
        rw [hres]
        have hls := removeLoop_state a l (initRemoveSt o)
        rw [hloop] at hls
        dsimp only at hls
        have hw := fidelity_WF o hfid
        have hWFst : stWF st := hls.2.2.2 ⟨hw.1, hw.2.1, hw.2.2⟩
        exact finishRemove_fidelity o st out hfid hWFst
          (fun h => (hls.1 h).1) (fun h => (hls.2.1 h).1) (fun h => (hls.2.2.1 h).1)

/-- C2 witness: fidelity holds for a concretely parsed record and for the
record after a concrete successful removal. -/
theorem cache_fidelity_witness :
    cacheFidelity sampleOrigin ∧
    cacheFidelity (rpmostree_origin_remove_packages vfOrigin (some [strL "vim"]) false
      (some false)).origin :=
  ⟨cache_fidelity_construction_and_remove.1 sampleKf sampleOrigin (by decide),
   cache_fidelity_construction_and_remove.2 vfOrigin (some [strL "vim"]) false (some false)
     (by decide) (by decide)⟩

/-- C2 counterexample: a successful add-packages updates the flat record
through the structured config but leaves the RequestedRemote cache stale,
so fidelity fails after a successful public mutation on a record obtained
by construction. -/
theorem cache_fidelity_cex :
    rpmostree_origin_parse_keyfile sampleKf = .ok sampleOrigin ∧
    (rpmostree_origin_add_packages sampleOrigin [strL "bar"] false none).err = none ∧
    ¬ cacheFidelity (rpmostree_origin_add_packages sampleOrigin [strL "bar"] false
      none).origin := by
  decide

/-- C10: the changed out-parameter of remove-packages is OR-accumulated
(an entry value of true survives any call, and a NULL pointer is accepted
without effect), while add-packages overwrites the out-parameter with
exactly whether that call changed anything. -/
theorem changed_out_or_accumulated :
    (∀ (o : Origin) (ps : Option (List Str)) (a : Bool),
       (rpmostree_origin_remove_packages o ps a (some true)).outChanged = some true) ∧
    (∀ (o : Origin) (ps : Option (List Str)) (a : Bool),
       (rpmostree_origin_remove_packages o ps a none).outChanged = none) ∧
    (∀ (o : Origin) (pkgs : List Str) (ae : Bool) (b : Bool) (tf1 : Treefile) (c : Bool),
       treefile_add_packages o.tf pkgs ae = .ok (tf1, c) →
       (rpmostree_origin_add_packages o pkgs ae (some b)).outChanged = some c ∧
       (c = false → (rpmostree_origin_add_packages o pkgs ae (some b)).origin = o) ∧
       (c = true → (rpmostree_origin_add_packages o pkgs ae (some b)).origin.tf ≠ o.tf)) := by
  refine ⟨?_, ?_, ?_⟩
  · intro o ps a
    cases ps with
    | none => rfl
    | some l =>
      cases hloop : removeLoop a (initRemoveSt o) l with
      | mk st e =>
        cases e with
        | some e' =>
          have hres : rpmostree_origin_remove_packages o (some l) a (some true) =
              ⟨applyCaches o st, some true, some e'⟩ := by
            unfold rpmostree_origin_remove_packages
            dsimp only
            rw [hloop]
          rw [hres]
        | none =>
          have hres : rpmostree_origin_remove_packages o (some l) a (some true) =
              finishRemove o st (some true) := by
            unfold rpmostree_origin_remove_packages
            dsimp only
            rw [hloop]
          rw [hres]
          show set_changed (some true) (st.chPkgs || st.chLocal || st.chFo) = some true
          simp [set_changed]
  · intro o ps a
    cases ps with
    | none => rfl
    | some l =>
      cases hloop : removeLoop a (initRemoveSt o) l with
      | mk st e =>
        cases e with
        | some e' =>
          have hres : rpmostree_origin_remove_packages o (some l) a none =
              ⟨applyCaches o st, none, some e'⟩ := by
            unfold rpmostree_origin_remove_packages
            dsimp only
            rw [hloop]
          rw [hres]
        | none =>
          have hres : rpmostree_origin_remove_packages o (some l) a none =
              finishRemove o st none := by
            unfold rpmostree_origin_remove_packages
            dsimp only
            rw [hloop]
          rw [hres]
          rfl
  · intro o pkgs ae b tf1 c htc
    have hres : rpmostree_origin_add_packages o pkgs ae (some b) =
        ⟨if c = true then sync_origin { o with tf := tf1 } else { o with tf := tf1 },
          some c, none⟩ := by
      unfold rpmostree_origin_add_packages
      rw [htc]
      rfl
    rw [hres]
    have hsp := addPkgsGo_spec ae pkgs o.tf false tf1 c htc
    refine ⟨rfl, ?_, ?_⟩
    · intro hc
      obtain ⟨htf1, _⟩ := hsp.1 hc
      rw [hc, htf1]
      rfl
    · intro hc
      rw [hc]
      intro heq
      have htfeq : tf1 = o.tf := heq
      rcases hsp.2.2 hc with hcontra | hlen
      · exact absurd hcontra (by simp)
      · rw [htfeq] at hlen
        exact lt_irrefl _ hlen

/-- C10 witness: with the out-parameter already true, a removal that
removes nothing still returns true; a no-change add with the out-parameter
already true overwrites it to false and leaves the record unchanged. -/
theorem changed_out_witness :
    (rpmostree_origin_remove_packages sampleOrigin (some [strL "nothere"]) true
      (some true)).outChanged = some true ∧
    (rpmostree_origin_add_packages sampleOrigin [strL "foo"] true
      (some true)).outChanged = some false ∧
    (rpmostree_origin_add_packages sampleOrigin [strL "foo"] true
      (some true)).origin = sampleOrigin :=
  ⟨changed_out_or_accumulated.1 sampleOrigin (some [strL "nothere"]) true,
   (changed_out_or_accumulated.2.2 sampleOrigin [strL "foo"] true true sampleOrigin.tf false
     (by decide)).1,
   (changed_out_or_accumulated.2.2 sampleOrigin [strL "foo"] true true sampleOrigin.tf false
     (by decide)).2.1 rfl⟩

/-! ## Disambiguation order and NotRequested -/

/-- C3: removal of one identifier tries, in order, an exact match in
RequestedLocal, RequestedLocalFileoverride, RequestedRemote, and finally a
bare-name lookup in the lazily built indexes over the two local caches;
the first matching step is the only one applied, and on the concrete
disambiguation example removing "foo-1.0-1.x86_64" touches only the local
entry while removing "foo" touches only the remote entry. -/
theorem remove_disambiguation_order :
    (∀ (a : Bool) (st : RemoveSt) (p : Str),
      ((tblRemove p st.localPkgs).2 = true →
        removeOne a st p =
          ({ st with localPkgs := (tblRemove p st.localPkgs).1, chLocal := true }, none)) ∧
      ((tblRemove p st.localPkgs).2 = false → (tblRemove p st.localFo).2 = true →
        removeOne a st p =
          ({ st with localFo := (tblRemove p st.localFo).1, chFo := true }, none)) ∧
      ((tblRemove p st.localPkgs).2 = false → (tblRemove p st.localFo).2 = false →
        (tblRemove p st.pkgs).2 = true →
        removeOne a st p =
          ({ st with pkgs := (tblRemove p st.pkgs).1, chPkgs := true }, none)) ∧
      (∀ m1 m2 : Tbl, st.maps = none →
        (tblRemove p st.localPkgs).2 = false → (tblRemove p st.localFo).2 = false →
        (tblRemove p st.pkgs).2 = false →
        build_name_to_nevra_map st.localPkgs = .ok m1 →
        build_name_to_nevra_map st.localFo = .ok m2 →
        tblContains p m1 = true →
        (tblRemove ((tblLookup p m1).getD []) st.localPkgs).2 = true →
        removeOne a st p =
          ({ st with localPkgs := (tblRemove ((tblLookup p m1).getD []) st.localPkgs).1,
                     chLocal := true, maps := some (m1, m2) }, none))) ∧
    ((rpmostree_origin_remove_packages exOrigin (some [strL "foo-1.0-1.x86_64"]) false
        none).origin.cachedLocalPackages = [] ∧
     (rpmostree_origin_remove_packages exOrigin (some [strL "foo-1.0-1.x86_64"]) false
        none).origin.cachedPackages = exOrigin.cachedPackages ∧
     (rpmostree_origin_remove_packages exOrigin (some [strL "foo"]) false
        none).origin.cachedPackages = [] ∧
     (rpmostree_origin_remove_packages exOrigin (some [strL "foo"]) false
        none).origin.cachedLocalPackages = exOrigin.cachedLocalPackages) := by
  constructor
  · intro a st p
    refine ⟨?_, ?_, ?_, ?_⟩
    · intro h1
      unfold removeOne
      rw [if_pos h1]
    · intro h1 h2
      unfold removeOne
      rw [if_neg (by simp [h1]), if_pos h2]
    · intro h1 h2 h3
      unfold removeOne
      rw [if_neg (by simp [h1]), if_neg (by simp [h2]), if_pos h3]
    · intro m1 m2 hmaps h1 h2 h3 hb1 hb2 hcont hrem
      unfold removeOne
      rw [if_neg (by simp [h1]), if_neg (by simp [h2]), if_neg (by simp [h3])]
      simp only [hmaps, hb1, hb2]
      unfold removeViaNameMaps
      rw [if_pos hcont, if_pos hrem]
  · exact ⟨by decide, by decide, by decide, by decide⟩

/-- C3 witness: the first removal step applied at a concrete state. -/
theorem remove_disambiguation_order_witness :
    removeOne false (initRemoveSt exOrigin) (strL "foo-1.0-1.x86_64") =
      ({ initRemoveSt exOrigin with
          localPkgs := (tblRemove (strL "foo-1.0-1.x86_64")
            (initRemoveSt exOrigin).localPkgs).1,
          chLocal := true }, none) :=
  (remove_disambiguation_order.1 false (initRemoveSt exOrigin)
    (strL "foo-1.0-1.x86_64")).1 (by decide)

theorem removeOne_miss_builds (a : Bool) (st : RemoveSt) (p : Str) (m1 m2 : Tbl)
    (hmaps : st.maps = none)
    (h1 : (tblRemove p st.localPkgs).2 = false)
    (h2 : (tblRemove p st.localFo).2 = false)
    (h3 : (tblRemove p st.pkgs).2 = false)
    (hb1 : build_name_to_nevra_map st.localPkgs = .ok m1)
    (hb2 : build_name_to_nevra_map st.localFo = .ok m2) :
    removeOne a st p = removeViaNameMaps a { st with maps := some (m1, m2) } m1 m2 p := by
  unfold removeOne
  rw [if_neg (by simp [h1]), if_neg (by simp [h2]), if_neg (by simp [h3])]
  simp only [hmaps, hb1, hb2]

theorem removeViaNameMaps_miss (a : Bool) (st : RemoveSt) (m1 m2 : Tbl) (p : Str)
    (h1 : tblContains p m1 = false) (h2 : tblContains p m2 = false) :
    removeViaNameMaps a st m1 m2 p =
      if a then (st, none) else (st, some (OriginError.notRequested p)) := by
  unfold removeViaNameMaps
  rw [if_neg (by simp [h1]), if_neg (by simp [h2])]
  cases a <;> rfl

theorem set_changed_false (out : Option Bool) : set_changed out false = out := by
  cases out <;> simp [set_changed]

theorem finishRemove_noflags (o : Origin) (st : RemoveSt) (out : Option Bool)
    (hp : st.pkgs = o.cachedPackages) (hl : st.localPkgs = o.cachedLocalPackages)
    (hf : st.localFo = o.cachedLocalFileoverridePackages)
    (h1 : st.chPkgs = false) (h2 : st.chLocal = false) (h3 : st.chFo = false) :
    finishRemove o st out = ⟨o, out, none⟩ := by
  unfold finishRemove writeBackKf applyCaches sync_treefile
  dsimp only
  rw [h1, h2, h3, hp, hl, hf]
  cases out <;> simp [set_changed]

theorem removeLoop_allmiss (ps : List Str) :
    ∀ (st : RemoveSt) (m1 m2 : Tbl), st.maps = some (m1, m2) →
      (∀ q ∈ ps,
        tblContains q st.localPkgs = false ∧ tblContains q st.localFo = false ∧
        tblContains q st.pkgs = false ∧
        tblContains q m1 = false ∧ tblContains q m2 = false) →
      removeLoop true st ps = (st, none) := by
  induction ps with
  | nil => intro st m1 m2 _ _; rfl
  | cons q rest ih =>
    intro st m1 m2 hmaps hmiss
    obtain ⟨hq1, hq2, hq3, hq4, hq5⟩ := hmiss q (List.mem_cons_self q rest)
    have hone : removeOne true st q = (st, none) := by
      unfold removeOne
      rw [if_neg (by rw [← tblContains_eq_remove_snd]; simp [hq1]),
          if_neg (by rw [← tblContains_eq_remove_snd]; simp [hq2]),
          if_neg (by rw [← tblContains_eq_remove_snd]; simp [hq3])]
      simp only [hmaps]
      rw [removeViaNameMaps_miss true st m1 m2 q hq4 hq5]
      rfl
    simp only [removeLoop]
    rw [hone]
    exact ih st m1 m2 hmaps (fun q' hq' => hmiss q' (List.mem_cons_of_mem q hq'))

/-- C4: an identifier matching none of the four removal steps makes the
whole call fail with NotRequested naming that identifier when allow-noent
is unset (first conjunct: at any loop state; third conjunct: for the full
entry point), and is silently skipped with the call succeeding when
allow-noent is set (second and fourth conjuncts). -/
theorem remove_not_requested :
    (∀ (st : RemoveSt) (p : Str) (rest : List Str) (m1 m2 : Tbl),
      st.maps = none →
      build_name_to_nevra_map st.localPkgs = .ok m1 →
      build_name_to_nevra_map st.localFo = .ok m2 →
      tblContains p st.localPkgs = false →
      tblContains p st.localFo = false →
      tblContains p st.pkgs = false →
      tblContains p m1 = false →
      tblContains p m2 = false →
      removeLoop false st (p :: rest) =
        ({ st with maps := some (m1, m2) }, some (OriginError.notRequested p)) ∧
      removeOne true st p = ({ st with maps := some (m1, m2) }, none)) ∧
    (∀ (o : Origin) (p : Str) (rest : List Str) (out : Option Bool) (m1 m2 : Tbl),
      build_name_to_nevra_map o.cachedLocalPackages = .ok m1 →
      build_name_to_nevra_map o.cachedLocalFileoverridePackages = .ok m2 →
      tblContains p o.cachedLocalPackages = false →
      tblContains p o.cachedLocalFileoverridePackages = false →
      tblContains p o.cachedPackages = false →
      tblContains p m1 = false →
      tblContains p m2 = false →
      (rpmostree_origin_remove_packages o (some (p :: rest)) false out).err =
        some (OriginError.notRequested p)) ∧
    (∀ (o : Origin) (ps : List Str) (out : Option Bool) (m1 m2 : Tbl),
      build_name_to_nevra_map o.cachedLocalPackages = .ok m1 →
      build_name_to_nevra_map o.cachedLocalFileoverridePackages = .ok m2 →
      (∀ q ∈ ps,
        tblContains q o.cachedLocalPackages = false ∧
        tblContains q o.cachedLocalFileoverridePackages = false ∧
        tblContains q o.cachedPackages = false ∧
        tblContains q m1 = false ∧ tblContains q m2 = false) →
      rpmostree_origin_remove_packages o (some ps) true out = ⟨o, out, none⟩) := by
  have hkey : ∀ (st : RemoveSt) (p : Str) (m1 m2 : Tbl),
      st.maps = none →
      build_name_to_nevra_map st.localPkgs = .ok m1 →
      build_name_to_nevra_map st.localFo = .ok m2 →
      tblContains p st.localPkgs = false →
      tblContains p st.localFo = false →
      tblContains p st.pkgs = false →
      tblContains p m1 = false →
      tblContains p m2 = false →
      ∀ a : Bool, removeOne a st p =
        if a then ({ st with maps := some (m1, m2) }, none)
        else ({ st with maps := some (m1, m2) }, some (OriginError.notRequested p)) := by
    intro st p m1 m2 hmaps hb1 hb2 hc1 hc2 hc3 hm1 hm2 a
    rw [removeOne_miss_builds a st p m1 m2 hmaps
        (by rw [← tblContains_eq_remove_snd]; exact hc1)
        (by rw [← tblContains_eq_remove_snd]; exact hc2)
        (by rw [← tblContains_eq_remove_snd]; exact hc3) hb1 hb2]
    exact removeViaNameMaps_miss a { st with maps := some (m1, m2) } m1 m2 p hm1 hm2
  refine ⟨?_, ?_, ?_⟩
  · intro st p rest m1 m2 hmaps hb1 hb2 hc1 hc2 hc3 hm1 hm2
    constructor
    · simp only [removeLoop]
      rw [hkey st p m1 m2 hmaps hb1 hb2 hc1 hc2 hc3 hm1 hm2 false]
      rfl
    · rw [hkey st p m1 m2 hmaps hb1 hb2 hc1 hc2 hc3 hm1 hm2 true]
      rfl
  · intro o p rest out m1 m2 hb1 hb2 hc1 hc2 hc3 hm1 hm2
    have hloop : removeLoop false (initRemoveSt o) (p :: rest) =
        ({ initRemoveSt o with maps := some (m1, m2) },
          some (OriginError.notRequested p)) := by
      simp only [removeLoop]
      rw [hkey (initRemoveSt o) p m1 m2 rfl hb1 hb2 hc1 hc2 hc3 hm1 hm2 false]
      rfl
    unfold rpmostree_origin_remove_packages
    dsimp only
    rw [hloop]
  · intro o ps out m1 m2 hb1 hb2 hmiss
    cases ps with
    | nil =>
      have hres : rpmostree_origin_remove_packages o (some []) true out =
          finishRemove o (initRemoveSt o) out := rfl
      rw [hres]
      exact finishRemove_noflags o (initRemoveSt o) out rfl rfl rfl rfl rfl rfl
    | cons p rest =>
      obtain ⟨hq1, hq2, hq3, hq4, hq5⟩ := hmiss p (List.mem_cons_self p rest)
      have hone := hkey (initRemoveSt o) p m1 m2 rfl hb1 hb2 hq1 hq2 hq3 hq4 hq5 true
      have hloop : removeLoop true (initRemoveSt o) (p :: rest) =
          ({ initRemoveSt o with maps := some (m1, m2) }, none) := by
        simp only [removeLoop]
        rw [hone]
        exact removeLoop_allmiss rest { initRemoveSt o with maps := some (m1, m2) } m1 m2 rfl
          (fun q' hq' => hmiss q' (List.mem_cons_of_mem p hq'))
      have hres : rpmostree_origin_remove_packages o (some (p :: rest)) true out =
          finishRemove o ({ initRemoveSt o with maps := some (m1, m2) }) out := by
        unfold rpmostree_origin_remove_packages
        dsimp only
        rw [hloop]
      rw [hres]
      exact finishRemove_noflags o _ out rfl rfl rfl rfl rfl rfl

/-- C4 witness: on a record requesting only the remote package "foo",
removing the unmatched identifier "bar" fails with NotRequested("bar")
when allow-noent is unset and is a successful no-op when it is set. -/
theorem remove_not_requested_witness :
    (rpmostree_origin_remove_packages sampleOrigin (some [strL "bar"]) false
      (some false)).err = some (OriginError.notRequested (strL "bar")) ∧
    rpmostree_origin_remove_packages sampleOrigin (some [strL "bar"]) true
      (some false) = ⟨sampleOrigin, some false, none⟩ :=
  ⟨remove_not_requested.2.1 sampleOrigin (strL "bar") [] (some false) [] []
     (by decide) (by decide) (by decide) (by decide) (by decide) (by decide) (by decide),
   remove_not_requested.2.2 sampleOrigin [strL "bar"] (some false) [] []
     (by decide) (by decide) (by decide)⟩

/-! ## All-or-nothing construction and the write-back encoding -/

theorem listToOpt_getD (l : List Str) : (listToOpt l).getD [] = l := by
  unfold listToOpt
  split <;> simp [*]

/-- C5: if any token of the three hash-qualified sections of the flat
record fails to decompose into hash plus identifier, construction fails
with a malformed-package-specifier error; since the result type returns
either a whole record or an error, no partially built record escapes. -/
theorem parse_all_or_nothing (kf : KeyFile) (tok : Str)
    (hmem : tok ∈ kf.pkgsRequestedLocal.getD [] ∨
            tok ∈ kf.pkgsRequestedLocalFileoverride.getD [] ∨
            tok ∈ kf.overridesReplaceLocal.getD [])
    (hbad : rpmostree_decompose_sha256_nevra tok = none) :
    ∃ t, rpmostree_origin_parse_keyfile kf = .error (OriginError.malformedSpec t) := by
  have e1 : (kfGetSection (treefile_to_origin (origin_to_treefile kf))
      .requestedLocal).getD [] = kf.pkgsRequestedLocal.getD [] := listToOpt_getD _
  have e2 : (kfGetSection (treefile_to_origin (origin_to_treefile kf))
      .requestedLocalFileoverride).getD [] =
        kf.pkgsRequestedLocalFileoverride.getD [] := listToOpt_getD _
  have e3 : (kfGetSection (treefile_to_origin (origin_to_treefile kf))
      .overridesReplaceLocal).getD [] = kf.overridesReplaceLocal.getD [] := listToOpt_getD _
  unfold rpmostree_origin_parse_keyfile
  dsimp only
  obtain ⟨r1, hr1⟩ := parseSet_ok
    ((kfGetSection (treefile_to_origin (origin_to_treefile kf)) .requested).getD []) []
  have hr1' : parse_packages_strv (treefile_to_origin (origin_to_treefile kf))
      .requested false [] = .ok r1 := hr1
  rw [hr1']
  cases hp2 : parse_packages_strv (treefile_to_origin (origin_to_treefile kf))
      .requestedLocal true [] with
  | error e =>
    obtain ⟨t, ht⟩ := parseMap_err_shape _ _ _ hp2
    exact ⟨t, by rw [ht]⟩
  | ok c2 =>
    rcases hmem with hmem1 | hmem2 | hmem3
    · obtain ⟨t, hterr⟩ := parseMap_bad _ tok (e1 ▸ hmem1) hbad []
      have hco : parsePkgTokens true ((kfGetSection (treefile_to_origin
          (origin_to_treefile kf)) .requestedLocal).getD []) [] = .ok c2 := hp2
      rw [hterr] at hco
      exact absurd hco (by simp)
    · cases hp3 : parse_packages_strv (treefile_to_origin (origin_to_treefile kf))
          .requestedLocalFileoverride true [] with
      | error e =>
        obtain ⟨t, ht⟩ := parseMap_err_shape _ _ _ hp3
        exact ⟨t, by rw [ht]⟩
      | ok c3 =>
        obtain ⟨t, hterr⟩ := parseMap_bad _ tok (e2 ▸ hmem2) hbad []
        have hco : parsePkgTokens true ((kfGetSection (treefile_to_origin
            (origin_to_treefile kf)) .requestedLocalFileoverride).getD []) [] =
              .ok c3 := hp3
        rw [hterr] at hco
        exact absurd hco (by simp)
    · cases hp3 : parse_packages_strv (treefile_to_origin (origin_to_treefile kf))
          .requestedLocalFileoverride true [] with
      | error e =>
        obtain ⟨t, ht⟩ := parseMap_err_shape _ _ _ hp3
        exact ⟨t, by rw [ht]⟩
      | ok c3 =>
        obtain ⟨r4, hr4⟩ := parseSet_ok ((kfGetSection (treefile_to_origin
          (origin_to_treefile kf)) .overridesRemove).getD []) []
        have hr4' : parse_packages_strv (treefile_to_origin (origin_to_treefile kf))
            .overridesRemove false [] = .ok r4 := hr4
        rw [hr4']
        cases hp5 : parse_packages_strv (treefile_to_origin (origin_to_treefile kf))
            .overridesReplaceLocal true [] with
        | error e =>
          obtain ⟨t, ht⟩ := parseMap_err_shape _ _ _ hp5
          exact ⟨t, by rw [ht]⟩
        | ok c5 =>
          obtain ⟨t, hterr⟩ := parseMap_bad _ tok (e3 ▸ hmem3) hbad []
          have hco : parsePkgTokens true ((kfGetSection (treefile_to_origin
              (origin_to_treefile kf)) .overridesReplaceLocal).getD []) [] =
                .ok c5 := hp5
          rw [hterr] at hco
          exact absurd hco (by simp)

/-- C5 witness: construction on `badKf` fails with the malformed-specifier
error. -/
theorem parse_all_or_nothing_witness :
    ∃ t, rpmostree_origin_parse_keyfile badKf = .error (OriginError.malformedSpec t) :=
  parse_all_or_nothing badKf (strL "nocolon") (by decide) (by decide)

/-- C7: the cache-to-flat write-back used by remove-packages removes the
key outright when the cache is empty (never writing an empty list), and
otherwise writes exactly one token per cache entry: "<hash>:<identifier>"
for hash-carrying caches and the plain key for set caches. -/
theorem update_keyfile_encoding (kf : KeyFile) (sec : OriginSection) (pkgs : Tbl)
    (hasCsum : Bool) :
    (pkgs = [] →
      update_keyfile_pkgs_from_cache kf sec pkgs hasCsum = kfRemoveSection kf sec ∧
      kfGetSection (update_keyfile_pkgs_from_cache kf sec pkgs hasCsum) sec = none) ∧
    (pkgs ≠ [] →
      kfGetSection (update_keyfile_pkgs_from_cache kf sec pkgs true) sec =
        some (pkgs.map serializeMapTok) ∧
      kfGetSection (update_keyfile_pkgs_from_cache kf sec pkgs false) sec =
        some (tblKeys pkgs)) := by
  refine ⟨fun hp => ⟨?_, ?_⟩, fun hp => ⟨?_, ?_⟩⟩
  · unfold update_keyfile_pkgs_from_cache
    rw [if_pos hp]
  · rw [kfGetSection_update_self, if_pos hp]
  · rw [kfGetSection_update_self, if_neg hp]
    simp
  · rw [kfGetSection_update_self, if_neg hp]
    simp [update_string_list_from_hash_table]

/-- C7 witness: concrete write-backs of an empty and a one-entry cache. -/
theorem update_keyfile_encoding_witness :
    update_keyfile_pkgs_from_cache sampleKf .requested [] false =
      kfRemoveSection sampleKf .requested ∧
    kfGetSection (update_keyfile_pkgs_from_cache sampleKf .requestedLocal
      [(strL "foo-1.0-1.x86_64", some (strL "aa11"))] true) .requestedLocal =
        some ([(strL "foo-1.0-1.x86_64", some (strL "aa11"))].map serializeMapTok) :=
  ⟨((update_keyfile_encoding sampleKf .requested [] false).1 rfl).1,
   ((update_keyfile_encoding sampleKf .requestedLocal
      [(strL "foo-1.0-1.x86_64", some (strL "aa11"))] true).2 (by decide)).1⟩

/-! ## Duplicate independence -/

theorem listGet_set_ne {α : Type} (v : α) :
    ∀ (l : List α) (i j : Nat), i ≠ j → (l.set j v).get? i = l.get? i := by
  intro l
  induction l with
  | nil => intro i j _; rfl
  | cons a t ih =>
    intro i j h
    cases j with
    | zero =>
      cases i with
      | zero => exact absurd rfl h
      | succ i' => rfl
    | succ j' =>
      cases i with
      | zero => rfl
      | succ i' => exact ih i' j' (fun e => h (by rw [e]))

theorem listGet_append_left {α : Type} (l2 : List α) :
    ∀ (l1 : List α) (i : Nat), i < l1.length → (l1 ++ l2).get? i = l1.get? i := by
  intro l1
  induction l1 with
  | nil => intro i h; exact absurd h (by simp)
  | cons a t ih =>
    intro i h
    cases i with
    | zero => rfl
    | succ i' => exact ih i' (Nat.lt_of_succ_lt_succ h)

theorem listGet_append_length {α : Type} (v : α) :
    ∀ l1 : List α, (l1 ++ [v]).get? l1.length = some v := by
  intro l1
  induction l1 with
  | nil => rfl
  | cons a t ih => exact ih

/-- C6: duplicating a record allocates a fresh record parsed from the
original's flat record: in the store model the copy sits at a fresh index
with an equal flat record, and applying any modelled public mutation to
either of the two indices leaves the record at the other index untouched
(both directions of duplicate independence). -/
theorem dup_independence (s : List Origin) (i : Nat) (o copy : Origin)
    (hget : s.get? i = some o)
    (hdup : rpmostree_origin_dup o = .ok copy)
    (hnorm : kfNormalized o.kf) :
    dupAt s i = s ++ [copy] ∧
    copy.kf = o.kf ∧
    (dupAt s i).get? s.length = some copy ∧
    (∀ m : Mutation, (applyMutationAt (dupAt s i) s.length m).get? i = some o) ∧
    (∀ m : Mutation, (applyMutationAt (dupAt s i) i m).get? s.length = some copy) := by
  have hlen : i < s.length := by
    by_contra hcon
    have hnone : s.get? i = none := List.get?_eq_none.mpr (Nat.le_of_not_lt hcon)
    rw [hget] at hnone
    exact absurd hnone (by simp)
  have hdupAt : dupAt s i = s ++ [copy] := by
    unfold dupAt
    rw [hget]
    dsimp only
    rw [hdup]
  have hkfcopy : copy.kf = o.kf := by
    obtain ⟨h1, _, _⟩ := parse_keyfile_shape o.kf copy hdup
    rw [h1, hnorm]
  have hne : i ≠ s.length := Nat.ne_of_lt hlen
  have hgetlen : (dupAt s i).get? s.length = some copy := by
    rw [hdupAt]
    exact listGet_append_length copy s
  have hgeti : (dupAt s i).get? i = some o := by
    rw [hdupAt, listGet_append_left [copy] s i hlen]
    exact hget
  refine ⟨hdupAt, hkfcopy, hgetlen, ?_, ?_⟩
  · intro m
    unfold applyMutationAt
    rw [hgetlen, listGet_set_ne _ _ i s.length hne]
    exact hgeti
  · intro m
    unfold applyMutationAt
    rw [hgeti, listGet_set_ne _ _ s.length i (fun e => hne e.symm)]
    exact hgetlen

/-- C6 witness: duplicating a concrete single-record store and mutating
either the copy or the original leaves the other unchanged. -/
theorem dup_independence_witness :
    dupAt [sampleOrigin] 0 = [sampleOrigin, sampleOrigin] ∧
    (applyMutationAt (dupAt [sampleOrigin] 0) 1
      (Mutation.toggle (ToggleOp.setCliwrap true))).get? 0 = some sampleOrigin ∧
    (applyMutationAt (dupAt [sampleOrigin] 0) 0
      (Mutation.toggle (ToggleOp.setCliwrap true))).get? 1 = some sampleOrigin := by
  have h := dup_independence [sampleOrigin] 0 sampleOrigin sampleOrigin
    (by decide) (by decide) (by decide)
  exact ⟨h.1, h.2.2.2.1 _, h.2.2.2.2 _⟩

/-! ## Auxiliary toggles -/

theorem etc_track_unchanged (tf : Treefile) (paths : List Str) :
    (treefile_initramfs_etc_files_track tf paths).2 = false →
    (treefile_initramfs_etc_files_track tf paths).1 = tf := by
  unfold treefile_initramfs_etc_files_track
  dsimp only
  intro h
  by_cases hl : listAddAbsent tf.initramfsEtc paths = tf.initramfsEtc
  · rw [hl]
  · rw [if_neg hl] at h
    exact absurd h (by simp)

theorem etc_untrack_unchanged (tf : Treefile) (paths : List Str) :
    (treefile_initramfs_etc_files_untrack tf paths).2 = false →
    (treefile_initramfs_etc_files_untrack tf paths).1 = tf := by
  unfold treefile_initramfs_etc_files_untrack
  dsimp only
  intro h
  by_cases hl : listRemovePresent tf.initramfsEtc paths = tf.initramfsEtc
  · rw [hl]
  · rw [if_neg hl] at h
    exact absurd h (by simp)

theorem etc_untrack_all_unchanged (tf : Treefile) :
    (treefile_initramfs_etc_files_untrack_all tf).2 = false →
    (treefile_initramfs_etc_files_untrack_all tf).1 = tf := by
  unfold treefile_initramfs_etc_files_untrack_all
  dsimp only
  intro h
  by_cases hl : tf.initramfsEtc = []
  · rw [← hl]
  · rw [if_neg hl] at h
    exact absurd h (by simp)

theorem add_modules_unchanged (tf : Treefile) (ms : List Str) (eo : Bool) :
    (treefile_add_modules tf ms eo).2 = false → (treefile_add_modules tf ms eo).1 = tf := by
  unfold treefile_add_modules
  by_cases heo : eo = true
  · rw [if_pos heo]
    dsimp only
    intro h
    by_cases hl : listAddAbsent tf.modulesEnable ms = tf.modulesEnable
    · rw [hl]
    · rw [if_neg hl] at h
      exact absurd h (by simp)
  · rw [if_neg heo]
    dsimp only
    intro h
    by_cases hl : listAddAbsent tf.modulesInstall ms = tf.modulesInstall
    · rw [hl]
    · rw [if_neg hl] at h
      exact absurd h (by simp)

theorem remove_modules_unchanged (tf : Treefile) (ms : List Str) (eo : Bool) :
    (treefile_remove_modules tf ms eo).2 = false →
    (treefile_remove_modules tf ms eo).1 = tf := by
  unfold treefile_remove_modules
  by_cases heo : eo = true
  · rw [if_pos heo]
    dsimp only
    intro h
    by_cases hl : listRemovePresent tf.modulesEnable ms = tf.modulesEnable
    · rw [hl]
    · rw [if_neg hl] at h
      exact absurd h (by simp)
  · rw [if_neg heo]
    dsimp only
    intro h
    by_cases hl : listRemovePresent tf.modulesInstall ms = tf.modulesInstall
    · rw [hl]
    · rw [if_neg hl] at h
      exact absurd h (by simp)

theorem flaggedToggle_fields (o : Origin) (tc : Treefile × Bool) :
    (if tc.2 then sync_origin { o with tf := tc.1 }
      else { o with tf := tc.1 }).cachedPackages = o.cachedPackages ∧
    (if tc.2 then sync_origin { o with tf := tc.1 }
      else { o with tf := tc.1 }).cachedLocalPackages = o.cachedLocalPackages ∧
    (if tc.2 then sync_origin { o with tf := tc.1 }
      else { o with tf := tc.1 }).cachedLocalFileoverridePackages =
        o.cachedLocalFileoverridePackages ∧
    (if tc.2 then sync_origin { o with tf := tc.1 }
      else { o with tf := tc.1 }).cachedOverridesRemove = o.cachedOverridesRemove ∧
    (if tc.2 then sync_origin { o with tf := tc.1 }
      else { o with tf := tc.1 }).cachedOverridesLocalReplace =
        o.cachedOverridesLocalReplace := by
  split <;> exact ⟨rfl, rfl, rfl, rfl, rfl⟩

theorem flaggedToggle_sync (o : Origin) (tc : Treefile × Bool) (hb : tc.2 = true) :
    (if tc.2 then sync_origin { o with tf := tc.1 } else { o with tf := tc.1 }).kf =
      treefile_to_origin
        (if tc.2 then sync_origin { o with tf := tc.1 } else { o with tf := tc.1 }).tf := by
  rw [if_pos hb]
  rfl

theorem flaggedToggle_unchanged (o : Origin) (tc : Treefile × Bool) (hb : tc.2 = false)
    (h1 : tc.1 = o.tf) :
    (if tc.2 then sync_origin { o with tf := tc.1 } else { o with tf := tc.1 }) = o := by
  rw [if_neg (by simp [hb]), h1]

/-- C8 (amended): every auxiliary toggle leaves the five classification
caches untouched and drives the structured config; the module and etc-file
operations return whether a change occurred, resynchronize the flat record
from the structured config exactly when they report true, and return the
record unchanged when they report false; the initramfs-regenerate, cliwrap
and pinned-override-commit setters report nothing (their C signatures are
void) and resynchronize unconditionally. -/
theorem toggles_sync_and_report (op : ToggleOp) (o : Origin) :
    ((applyToggle op o).1.cachedPackages = o.cachedPackages ∧
     (applyToggle op o).1.cachedLocalPackages = o.cachedLocalPackages ∧
     (applyToggle op o).1.cachedLocalFileoverridePackages =
       o.cachedLocalFileoverridePackages ∧
     (applyToggle op o).1.cachedOverridesRemove = o.cachedOverridesRemove ∧
     (applyToggle op o).1.cachedOverridesLocalReplace = o.cachedOverridesLocalReplace) ∧
    (∀ c : Bool, (applyToggle op o).2 = some c →
      (c = true → (applyToggle op o).1.kf = treefile_to_origin (applyToggle op o).1.tf) ∧
      (c = false → (applyToggle op o).1 = o)) ∧
    ((applyToggle op o).2 = none →
      (applyToggle op o).1.kf = treefile_to_origin (applyToggle op o).1.tf) := by
  cases op with
  | addModules ms eo =>
    have hun := add_modules_unchanged o.tf ms eo
    dsimp only [applyToggle, rpmostree_origin_add_modules]
    refine ⟨flaggedToggle_fields o _, ?_, ?_⟩
    · intro c hc
      injection hc with hc'
      exact ⟨fun hct => flaggedToggle_sync o _ (hc'.trans hct),
        fun hcf => flaggedToggle_unchanged o _ (hc'.trans hcf) (hun (hc'.trans hcf))⟩
    · intro hnone
      exact absurd hnone (by simp)
  | removeModules ms eo =>
    have hun := remove_modules_unchanged o.tf ms eo
    dsimp only [applyToggle, rpmostree_origin_remove_modules]
    refine ⟨flaggedToggle_fields o _, ?_, ?_⟩
    · intro c hc
      injection hc with hc'
      exact ⟨fun hct => flaggedToggle_sync o _ (hc'.trans hct),
        fun hcf => flaggedToggle_unchanged o _ (hc'.trans hcf) (hun (hc'.trans hcf))⟩
    · intro hnone
      exact absurd hnone (by simp)
  | etcTrack paths =>
    have hun := etc_track_unchanged o.tf paths
    dsimp only [applyToggle, rpmostree_origin_initramfs_etc_files_track]
    refine ⟨flaggedToggle_fields o _, ?_, ?_⟩
    · intro c hc
      injection hc with hc'
      exact ⟨fun hct => flaggedToggle_sync o _ (hc'.trans hct),
        fun hcf => flaggedToggle_unchanged o _ (hc'.trans hcf) (hun (hc'.trans hcf))⟩
    · intro hnone
      exact absurd hnone (by simp)
  | etcUntrack paths =>
    have hun := etc_untrack_unchanged o.tf paths
    dsimp only [applyToggle, rpmostree_origin_initramfs_etc_files_untrack]
    refine ⟨flaggedToggle_fields o _, ?_, ?_⟩
    · intro c hc
      injection hc with hc'
      exact ⟨fun hct => flaggedToggle_sync o _ (hc'.trans hct),
        fun hcf => flaggedToggle_unchanged o _ (hc'.trans hcf) (hun (hc'.trans hcf))⟩
    · intro hnone
      exact absurd hnone (by simp)
  | etcUntrackAll =>
    have hun := etc_untrack_all_unchanged o.tf
    dsimp only [applyToggle, rpmostree_origin_initramfs_etc_files_untrack_all]
    refine ⟨flaggedToggle_fields o _, ?_, ?_⟩
    · intro c hc
      injection hc with hc'
      exact ⟨fun hct => flaggedToggle_sync o _ (hc'.trans hct),
        fun hcf => flaggedToggle_unchanged o _ (hc'.trans hcf) (hun (hc'.trans hcf))⟩
    · intro hnone
      exact absurd hnone (by simp)
  | setRegenerateInitramfs r args =>
    dsimp only [applyToggle, rpmostree_origin_set_regenerate_initramfs]
    exact ⟨⟨rfl, rfl, rfl, rfl, rfl⟩, fun c hc => absurd hc (by simp), fun _ => rfl⟩
  | setCliwrap b =>
    dsimp only [applyToggle, rpmostree_origin_set_cliwrap]
    exact ⟨⟨rfl, rfl, rfl, rfl, rfl⟩, fun c hc => absurd hc (by simp), fun _ => rfl⟩
  | setOverrideCommit cs =>
    dsimp only [applyToggle, rpmostree_origin_set_override_commit]
    exact ⟨⟨rfl, rfl, rfl, rfl, rfl⟩, fun c hc => absurd hc (by simp), fun _ => rfl⟩

/-- C8 witness: a concrete etc-file tracking call reports a change, leaves
the caches untouched, and resynchronizes the flat record. -/
theorem toggles_sync_witness :
    (applyToggle (ToggleOp.etcTrack [strL "f"]) sampleOrigin).2 = some true ∧
    (applyToggle (ToggleOp.etcTrack [strL "f"]) sampleOrigin).1.kf =
      treefile_to_origin (applyToggle (ToggleOp.etcTrack [strL "f"]) sampleOrigin).1.tf ∧
    (applyToggle (ToggleOp.etcTrack [strL "f"]) sampleOrigin).1.cachedPackages =
      sampleOrigin.cachedPackages := by
  have h := toggles_sync_and_report (ToggleOp.etcTrack [strL "f"]) sampleOrigin
  exact ⟨by decide, (h.2.1 true (by decide)).1 rfl, h.1.1⟩

/-- C8 counterexample: setting cliwrap changes the origin record but the
operation returns no change report, so the claim that every auxiliary
toggle reports whether a change occurred is false. -/
theorem toggles_report_cex :
    (applyToggle (ToggleOp.setCliwrap true) sampleOrigin).2 = none ∧
    (applyToggle (ToggleOp.setCliwrap true) sampleOrigin).1 ≠ sampleOrigin := by
  decide
